import Mathlib

/-!
# Verification of the dafty-mcp extraction-and-normalization pipeline

Shallow embedding of the TypeScript sources of the `dafty-mcp` repository
(`src/utils/parser.utils.ts`, `src/services/fetch.service.ts`,
`src/services/parser.service.ts`, `src/services/filter.service.ts`,
`src/services/daftScraper.service.ts`) together with proofs about the
embedded functions.

Modelling conventions, used consistently below:

* JavaScript strings are `List Char`; `undefined | string` is
  `Option (List Char)`.  `toLowerCase`, `trim` and the `\s`, `\d`, `\w`
  character classes are modelled on the ASCII range, which covers every
  character occurring in the sources and the claims.
* JavaScript numbers are modelled exactly: a `JSNum` is `NaN`, `Infinity`,
  `-Infinity` or an exact rational.  Decimal numerals evaluate exactly
  instead of rounding to binary64, and `Infinity` arises only from a
  literal `Infinity` token; IEEE-754 range artefacts are outside the scope
  of this embedding.
* Each regular expression of the sources is compiled to a deterministic
  left-to-right scanner.  Every one of these regexes is free of observable
  backtracking: each greedy character class in them is followed by a
  pattern that can never match a character of that class, so the
  maximal-run reading of a greedy `X+`/`X*` is exact.  This is argued
  case by case at the corresponding definition.
-/

namespace Dafty

/-! ## Character classes and basic string operations -/

/-- The `\s` class of the JavaScript regexes and of `trim`, restricted to
ASCII (space, tab, LF, VT, FF, CR). -/
def isJsSpace (c : Char) : Bool :=
  c = ' ' || c = '\t' || c = '\n' || c = '\x0b' || c = '\x0c' || c = '\r'

/-- The `\d` class: ASCII digits. -/
def isDigitC (c : Char) : Bool :=
  48 ≤ c.toNat && c.toNat ≤ 57

/-- The `[\d,]` class used by the amount regexes of `parsePrice`. -/
def isDC (c : Char) : Bool :=
  isDigitC c || c = ','

/-- The `\w` class (ASCII letters, digits, underscore), used by the `\b`
assertions of the postal-code regexes. -/
def isWordChar (c : Char) : Bool :=
  (65 ≤ c.toNat && c.toNat ≤ 90) || (97 ≤ c.toNat && c.toNat ≤ 122) ||
    isDigitC c || c = '_'

/-- `String.prototype.toLowerCase`, character by character. -/
def toLowerL (l : List Char) : List Char :=
  l.map Char.toLower

/-- `String.prototype.trim` (both ends, `\s` class). -/
def trimL (l : List Char) : List Char :=
  ((l.dropWhile isJsSpace).reverse.dropWhile isJsSpace).reverse

/-- `String.prototype.includes`: `nd` occurs as a contiguous substring. -/
def containsSub (nd : List Char) : List Char → Bool
  | [] => nd.isEmpty
  | c :: t => nd.isPrefixOf (c :: t) || containsSub nd t

/-- One position of the `\b<w>\b` search: a match starts here if `w` is a
prefix, the previous character (if any) is not a word character, and the
character following the match (if any) is not a word character.  This is
the JS semantics of `\b` for a needle `w` consisting of word characters
only (the needles used by the sources are `d<digits>`). -/
def wordBoundaryOk (prev : Option Char) : Bool :=
  match prev with
  | none => true
  | some c => !isWordChar c

def afterBoundaryOk (rest : List Char) : Bool :=
  match rest with
  | [] => true
  | c :: _ => !isWordChar c

def matchWordFrom (w : List Char) (prev : Option Char) : List Char → Bool
  | [] => wordBoundaryOk prev && w.isPrefixOf ([] : List Char)
  | c :: t =>
    (wordBoundaryOk prev && w.isPrefixOf (c :: t) &&
      afterBoundaryOk ((c :: t).drop w.length)) ||
    matchWordFrom w (some c) t

/-- `new RegExp("\\b" ++ w ++ "\\b").test s` for a word-character needle. -/
def matchWord (w : List Char) (s : List Char) : Bool :=
  matchWordFrom w none s

/-! ## Exact model of JavaScript numbers and `parseFloat` -/

/-- A JavaScript number: `NaN`, the two infinities, or an exact rational
(see the conventions in the file header). -/
inductive JSNum where
  | nan
  | inf
  | neginf
  | num (q : ℚ)
deriving DecidableEq, Repr

/-- Numeric value of a list of ASCII digits (most significant first). -/
def natVal (l : List Char) : ℕ :=
  l.foldl (fun a c => 10 * a + (c.toNat - 48)) 0

/-- Exponent digits of `parseFloat` after the `e`/`E` marker: an optional
sign and a maximal digit run; an empty run means the marker is not part of
the number (JS `parseFloat("1e") = 1`). -/
def expDigits (t : List Char) : ℤ :=
  let su : Bool × List Char :=
    match t with
    | c :: u => if c = '+' then (false, u) else if c = '-' then (true, u) else (false, c :: u)
    | [] => (false, [])
  let ds := su.2.takeWhile isDigitC
  if ds.isEmpty then 0
  else if su.1 then -(natVal ds : ℤ) else (natVal ds : ℤ)

def expVal (l : List Char) : ℤ :=
  match l with
  | c :: t => if c = 'e' || c = 'E' then expDigits t else 0
  | [] => 0

/-- Splits an optional leading sign. -/
def signSplit (l : List Char) : Bool × List Char :=
  match l with
  | c :: t => if c = '+' then (false, t) else if c = '-' then (true, t) else (false, c :: t)
  | [] => (false, [])

/-- `parseFloat`: leading whitespace, optional sign, either the literal
`Infinity` or `digits [. digits] [e/E exponent]`; at least one mantissa
digit is required, otherwise the result is `NaN`.  Trailing garbage is
ignored, exactly as in JS. -/
def jsParseFloat (l : List Char) : JSNum :=
  let l1 := l.dropWhile isJsSpace
  let neg := (signSplit l1).1
  let l2 := (signSplit l1).2
  if ("Infinity".toList).isPrefixOf l2 then
    if neg then .neginf else .inf
  else
    let ip := l2.takeWhile isDigitC
    let r1 := l2.dropWhile isDigitC
    let fpr : List Char × List Char :=
      match r1 with
      | c :: u => if c = '.' then (u.takeWhile isDigitC, u.dropWhile isDigitC) else ([], c :: u)
      | [] => ([], [])
    if ip.isEmpty && fpr.1.isEmpty then .nan
    else
      let mant : ℚ := (natVal ip : ℚ) + (natVal fpr.1 : ℚ) / (10 : ℚ) ^ fpr.1.length
      let v : ℚ := mant * (10 : ℚ) ^ expVal fpr.2
      .num (if neg then -v else v)

/-- `Math.round` (half away from minus infinity, i.e. `⌊x + 1/2⌋`). -/
def jsRound : JSNum → JSNum
  | .num q => .num ((⌊q + 1 / 2⌋ : ℤ) : ℚ)
  | .nan => .nan
  | .inf => .inf
  | .neginf => .neginf

/-- `Math.round((amount * 52) / 12)`, the weekly-to-monthly conversion of
`parsePrice`. -/
def weeklyToMonthly (x : JSNum) : JSNum :=
  jsRound (match x with
    | .num q => .num (q * 52 / 12)
    | y => y)

/-- The JS comparison `x < k` for a numeric literal `k` (false on `NaN`). -/
def jsLtB (x : JSNum) (k : ℚ) : Bool :=
  match x with
  | .num q => decide (q < k)
  | .neginf => true
  | _ => false

/-- The JS comparison `x >= k` (false on `NaN`). -/
def jsGeB (x : JSNum) (k : ℚ) : Bool :=
  match x with
  | .num q => decide (k ≤ q)
  | .inf => true
  | _ => false

/-! ## Decimal numerals

`natToDigits n` is the decimal numeral of `n`, written with explicit fuel
so that it reduces by iota in the kernel. -/

def digitChar (d : ℕ) : Char :=
  Char.ofNat (48 + d)

def natToDigitsAux : ℕ → ℕ → List Char
  | 0, n => [digitChar n]
  | fuel + 1, n =>
    if n < 10 then [digitChar n]
    else natToDigitsAux fuel (n / 10) ++ [digitChar (n % 10)]

def natToDigits (n : ℕ) : List Char :=
  natToDigitsAux n n

/-! ## `Number.prototype.toString`

Only ever applied by the sources to results of `parseFloat` on strings of
digits and dots, whose values are non-negative rationals with a
denominator dividing a power of ten; on those the decimal rendering below
agrees with JS.  (For a denominator with other prime factors — unreachable
from those inputs — the fraction is rendered explicitly.) -/

def factorCountAux : ℕ → ℕ → ℕ → ℕ
  | 0, _, _ => 0
  | fuel + 1, p, n =>
    if 2 ≤ p ∧ n % p = 0 ∧ 0 < n then 1 + factorCountAux fuel p (n / p) else 0

/-- Multiplicity of `p` in `n` (0 for degenerate arguments). -/
def factorCount (p n : ℕ) : ℕ :=
  factorCountAux n p n

/-- Zero-padded decimal numeral of `v` with `k` digits (used for the
fractional part). -/
def padDigits (k v : ℕ) : List Char :=
  List.replicate (k - (natToDigits v).length) '0' ++ natToDigits v

def ratToChars (q : ℚ) : List Char :=
  if q < 0 then '-' :: ratToChars (-q)
  else
    let d := q.den
    let k := max (factorCount 2 d) (factorCount 5 d)
    if (10 : ℕ) ^ k % d = 0 then
      let m := q.num.toNat * ((10 : ℕ) ^ k / d)
      if k = 0 then natToDigits m
      else natToDigits (m / 10 ^ k) ++ '.' :: padDigits k (m % 10 ^ k)
    else
      natToDigits q.num.toNat ++ '/' :: natToDigits d
termination_by if q < 0 then 1 else 0
decreasing_by
  rename_i h
  have h2 : ¬ (-q < 0) := by
    simp only [neg_neg_iff_pos]
    exact not_lt.mpr (le_of_lt h)
  simp [h, h2]

def jsNumToStr : JSNum → List Char
  | .nan => "NaN".toList
  | .inf => "Infinity".toList
  | .neginf => "-Infinity".toList
  | .num q => ratToChars q

/-! ## `parsePrice` (src/utils/parser.utils.ts, lines 6-108)

The three regexes are compiled to scanners as follows.

Main regex (line 18):
`(?:€\s*)?([\d,]+(?:\.\d{2})?)\s*(?:(?:per\s*)?(month|week|mth|wk|pm|p\/m|pw|p\/w|perweek))?`

* A match at position `i` exists iff the character there is in `[\d,]`, or
  it is `€` and the first non-`\s` character after it is in `[\d,]`
  (everything after capture 1 is optional; `\s` never overlaps `[\d,]`, so
  the greedy `€\s*` prefix needs no backtracking).
* Capture 1 is the maximal `[\d,]` run, extended by `.dd` exactly when the
  three characters after the run are a dot and two digits (nothing later
  in the regex can fail, so the greedy readings are final).
* Group 2: after skipping `\s` (no alternative starts with a space, so the
  greedy `\s*` is exact), the engine first tries to consume `per` plus
  `\s*` and match an alternative; on failure it retries the alternation
  without consuming `per`.  Alternation order is that of the source.
-/

def periodAlts : List (List Char) :=
  ["month".toList, "week".toList, "mth".toList, "wk".toList, "pm".toList,
    "p/m".toList, "pw".toList, "p/w".toList, "perweek".toList]

/-- First alternative of the period alternation that matches at this
position (prefix match, engine order). -/
def altMatch (l : List Char) : Option (List Char) :=
  periodAlts.find? (fun a => a.isPrefixOf l)

/-- Capture 1 of the amount regexes: maximal `[\d,]` run with an optional
`.dd` extension; returns the capture and the remaining characters. -/
def captureSplit (m : List Char) : List Char × List Char :=
  match m.dropWhile isDC with
  | c :: d1 :: d2 :: t =>
    if c = '.' && isDigitC d1 && isDigitC d2 then (m.takeWhile isDC ++ [c, d1, d2], t)
    else (m.takeWhile isDC, m.dropWhile isDC)
  | _ => (m.takeWhile isDC, m.dropWhile isDC)

/-- Group 2 of the main regex, applied to the text after capture 1 (first
with the optional `per` plus whitespace consumed, then without). -/
def group2From (l : List Char) : Option (List Char) :=
  if ("per".toList).isPrefixOf (l.dropWhile isJsSpace) then
    match altMatch (((l.dropWhile isJsSpace).drop 3).dropWhile isJsSpace) with
    | some a => some a
    | none => altMatch (l.dropWhile isJsSpace)
  else altMatch (l.dropWhile isJsSpace)

/-- The `€\s*`-consumed branch of a main-regex attempt. -/
def r1AtEuro (rest : List Char) : Option (List Char × Option (List Char)) :=
  match rest.dropWhile isJsSpace with
  | [] => none
  | c2 :: t2 =>
    if isDC c2 then
      some ((captureSplit (c2 :: t2)).1, group2From (captureSplit (c2 :: t2)).2)
    else none

/-- Attempt of the main regex at one position. -/
def r1MatchAt (l : List Char) : Option (List Char × Option (List Char)) :=
  match l with
  | [] => none
  | c :: rest =>
    if c = '€' then r1AtEuro rest
    else if isDC c then
      some ((captureSplit (c :: rest)).1, group2From (captureSplit (c :: rest)).2)
    else none

/-- Leftmost match of the main regex (`String.prototype.match`). -/
def r1Search : List Char → Option (List Char × Option (List Char))
  | [] => none
  | c :: t =>
    match r1MatchAt (c :: t) with
    | some r => some r
    | none => r1Search t

/-! Stricter anchored regex (line 52):
`^([\d,]+(?:\.\d{2})?)\s*(?:per\s*)?(month|week|mth|wk|pm|p\/m|pw|p\/w|perweek)$`
Anchored at both ends, so it matches iff the whole string is the capture,
whitespace, an optional `per` (plus whitespace) and an alternative that
ends the string.  As above no greedy run needs revisiting: shortening the
`[\d,]+` run or the `\s*` runs exposes a character (`[\d,]` or `\s`) that
no alternative and neither `per` nor `$` can consume. -/

/-- Alternative that equals the rest of the string exactly (the `$`). -/
def r2EndAlt (u : List Char) : Option (List Char) :=
  periodAlts.find? (fun a => u = a)

/-- The period word matched by the tail of the anchored regex (first with
the optional `per` consumed, then without). -/
def r2Period (w : List Char) : Option (List Char) :=
  if ("per".toList).isPrefixOf w then
    match r2EndAlt ((w.drop 3).dropWhile isJsSpace) with
    | some a => some a
    | none => r2EndAlt w
  else r2EndAlt w

def r2Match (l : List Char) : Option (List Char × List Char) :=
  match l with
  | [] => none
  | c :: rest =>
    if isDC c then
      match r2Period ((captureSplit (c :: rest)).2.dropWhile isJsSpace) with
      | some a => some ((captureSplit (c :: rest)).1, a)
      | none => none
    else none

/-- The weekly-synonym test of lines 30-36 and 60-66 (on the lowercased
period word). -/
def weeklyWord (pw : List Char) : Bool :=
  ("week".toList).isPrefixOf pw || ("wk".toList).isPrefixOf pw ||
    pw = "pw".toList || pw = "p/w".toList || pw = "perweek".toList

/-- `match[1].replace(/,/g, '')`. -/
def stripCommas (l : List Char) : List Char :=
  l.filter (fun c => c ≠ ',')

inductive PriceType where
  | numeric
  | on_application
  | unknown
deriving DecidableEq, Repr

structure ParsedPriceResult where
  value : Option JSNum
  type : PriceType
deriving DecidableEq, Repr

/-- Line 74/75: `priceString.replace(/[^0-9.]/g, '')` and the comparison
with `priceString.replace(/[^0-9€\s.,]/g, '')`; returns the digits-and-dots
string when the guard of line 75 holds. -/
def r3Candidate (s : List Char) : Option (List Char) :=
  if !(s.filter (fun c => isDigitC c || c = '.')).isEmpty &&
      s.filter (fun c => isDigitC c || c = '.') =
        s.filter (fun c => isDigitC c || c = '€' || isJsSpace c || c = '.' || c = ',') then
    some (s.filter (fun c => isDigitC c || c = '.'))
  else none

/-- The presence test of line 97: `/(month|week|mth|wk|pm|pw|p\/m|p\/w)/i`. -/
def periodMarkerTest (n : List Char) : Bool :=
  containsSub ("month".toList) n || containsSub ("week".toList) n ||
    containsSub ("mth".toList) n || containsSub ("wk".toList) n ||
    containsSub ("pm".toList) n || containsSub ("pw".toList) n ||
    containsSub ("p/m".toList) n || containsSub ("p/w".toList) n

/-- Lines 87-104 (after the €-guarded return of lines 78-86). -/
def r3Rest (n : List Char) (p : JSNum) : ParsedPriceResult :=
  if containsSub ("dublin".toList) n && containsSub (jsNumToStr p) n && jsLtB p 100 then
    ⟨none, .unknown⟩
  else if jsLtB p 100 && !n.contains '€' && !periodMarkerTest n then
    ⟨none, .unknown⟩
  else if jsGeB p 100 then ⟨some p, .numeric⟩
  else ⟨none, .unknown⟩

/-- Lines 76-104: the checks on the parsed candidate value. -/
def r3Settle (n cnd : List Char) : ParsedPriceResult :=
  match jsParseFloat cnd with
  | .nan => ⟨none, .unknown⟩
  | p =>
    if n.contains '€' || containsSub ("per month".toList) n || containsSub ("per week".toList) n then
      if n.contains '€' then ⟨some p, .numeric⟩ else r3Rest n p
    else r3Rest n p

/-- Lines 72-105: the final fallback for simple numeric strings.  `s` is
the original string, `n` its lowercased form. -/
def r3Fallback (s n : List Char) : ParsedPriceResult :=
  match r3Candidate s with
  | none => ⟨none, .unknown⟩
  | some c => r3Settle n c

/-- Lines 51-70 then 72-105: everything after the main regex failed to
settle the string. -/
def afterR1 (s n : List Char) : ParsedPriceResult :=
  match r2Match n with
  | some (cap, pw) =>
    match jsParseFloat (stripCommas cap) with
    | .nan => ⟨none, .unknown⟩
    | amount => ⟨some (if weeklyWord pw then weeklyToMonthly amount else amount), .numeric⟩
  | none => r3Fallback s n

/-- Lines 21-46: what happens with a main-regex match. -/
def r1Settle (s n cap : List Char) (period : Option (List Char)) : ParsedPriceResult :=
  match jsParseFloat (stripCommas cap) with
  | .nan => ⟨none, .unknown⟩
  | amount =>
    match period with
    | some pw => ⟨some (if weeklyWord pw then weeklyToMonthly amount else amount), .numeric⟩
    | none => if n.contains '€' then ⟨some amount, .numeric⟩ else afterR1 s n

/-- The body of `parsePrice` after the guard of line 7; `s` is the
original string and `n = s.toLowerCase()` (line 9). -/
def parsePriceMain (s n : List Char) : ParsedPriceResult :=
  if containsSub ("price on application".toList) n || containsSub ("contact agent".toList) n then
    ⟨none, .on_application⟩
  else
    match r1Search n with
    | some (cap, period) => r1Settle s n cap period
    | none => afterR1 s n

/-- `parsePrice` (the whole function, lines 6-108).  `none` is JavaScript
`undefined`; the empty string is also rejected by the `!priceString`
guard of line 7. -/
def parsePrice (input : Option (List Char)) : ParsedPriceResult :=
  match input with
  | none => ⟨none, .unknown⟩
  | some s =>
    if s.isEmpty then ⟨none, .unknown⟩
    else parsePriceMain s (toLowerL s)

/-! ## `extractLatLng` (src/utils/parser.utils.ts, lines 140-156)

The DOM lookup `$(selector).attr('href')` is the function's only use of
the HTML and the selector; the embedding therefore takes the looked-up
`href` (`none` when the anchor or the attribute is missing) and models the
rest of the function exactly.

Regexes `q=loc:([\d.-]+)\+([\d.-]+)` and `viewpoint=([\d.-]+),([\d.-]+)`:
the literal prefix anchors each attempt; both `[\d.-]+` captures are
maximal runs because the characters required after them (`+`, `,`, or the
end of the pattern) are outside the class. -/

def isCoordChar (c : Char) : Bool :=
  isDigitC c || c = '.' || c = '-'

/-- One attempt of `pre` `([\d.-]+)` `sep` `([\d.-]+)` at this position. -/
def coordMatchAt (pre : List Char) (sep : Char) (l : List Char) :
    Option (List Char × List Char) :=
  if pre.isPrefixOf l then
    if ((l.drop pre.length).takeWhile isCoordChar).isEmpty then none
    else
      match (l.drop pre.length).dropWhile isCoordChar with
      | [] => none
      | c :: u =>
        if c = sep then
          if (u.takeWhile isCoordChar).isEmpty then none
          else some ((l.drop pre.length).takeWhile isCoordChar, u.takeWhile isCoordChar)
        else none
  else none

def coordSearch (pre : List Char) (sep : Char) : List Char → Option (List Char × List Char)
  | [] => none
  | c :: t =>
    match coordMatchAt pre sep (c :: t) with
    | some r => some r
    | none => coordSearch pre sep t

/-- `link.match(loc-pattern) || link.match(viewpoint-pattern)`. -/
def coordPick (l : List Char) : Option (List Char × List Char) :=
  match coordSearch ("q=loc:".toList) '+' l with
  | some r => some r
  | none => coordSearch ("viewpoint=".toList) ',' l

def extractLatLng (link : Option (List Char)) : Option (JSNum × JSNum) :=
  match link with
  | none => none
  | some l =>
    match coordPick l with
    | none => none
    | some (c1, c2) =>
      if jsParseFloat c1 ≠ JSNum.nan ∧ jsParseFloat c2 ≠ JSNum.nan then
        some (jsParseFloat c1, jsParseFloat c2)
      else none

/-! ## `parseBeds` (src/utils/parser.utils.ts, lines 112-138)

Regexes `(\d+)\s*(?:to|-)\s*(\d+)\s*bed` and `(\d+)\s*bed`: the greedy
`\d+` and `\s*` runs are final because the pattern after them (`to`, `-`,
`\d`... after `\s*` only non-matching continuations, and `bed`) never
starts with a character of the respective class — except `\s*(\d+)`,
where shortening the whitespace run would expose a `\s` character to
`\d`, which also fails.  So maximal runs are exact here as well. -/

structure ParsedBedsResult where
  min : ℕ
  max : ℕ
  isStudio : Bool
deriving DecidableEq, Repr

def bedsRangeAt (l : List Char) : Option (ℕ × ℕ) :=
  match l with
  | [] => none
  | c :: _ =>
    if isDigitC c then
      let d1 := l.takeWhile isDigitC
      let w := (l.dropWhile isDigitC).dropWhile isJsSpace
      let afterSep : Option (List Char) :=
        if ("to".toList).isPrefixOf w then some (w.drop 2)
        else
          match w with
          | '-' :: u => some u
          | _ => none
      match afterSep with
      | none => none
      | some u =>
        let u2 := u.dropWhile isJsSpace
        match u2 with
        | [] => none
        | c2 :: _ =>
          if isDigitC c2 then
            let d2 := u2.takeWhile isDigitC
            let v := (u2.dropWhile isDigitC).dropWhile isJsSpace
            if ("bed".toList).isPrefixOf v then some (natVal d1, natVal d2) else none
          else none
    else none

def bedsRangeSearch : List Char → Option (ℕ × ℕ)
  | [] => none
  | c :: t =>
    match bedsRangeAt (c :: t) with
    | some r => some r
    | none => bedsRangeSearch t

def bedsSingleAt (l : List Char) : Option ℕ :=
  match l with
  | [] => none
  | c :: _ =>
    if isDigitC c then
      let d := l.takeWhile isDigitC
      let v := (l.dropWhile isDigitC).dropWhile isJsSpace
      if ("bed".toList).isPrefixOf v then some (natVal d) else none
    else none

def bedsSingleSearch : List Char → Option ℕ
  | [] => none
  | c :: t =>
    match bedsSingleAt (c :: t) with
    | some r => some r
    | none => bedsSingleSearch t

/-- `parseBeds`.  A missing `isStudio` property of the JS result is
modelled as `false`. -/
def parseBeds (bedString : Option (List Char)) : Option ParsedBedsResult :=
  match bedString with
  | none => none
  | some s =>
    if s.isEmpty then none
    else
      let n := toLowerL s
      if containsSub ("studio".toList) n then some ⟨1, 1, true⟩
      else
        match bedsRangeSearch n with
        | some (a, b) => some ⟨Nat.min a b, Nat.max a b, false⟩
        | none =>
          match bedsSingleSearch n with
          | some k => some ⟨k, k, false⟩
          | none => none

/-! ## `getTotalPages` (src/services/parser.service.ts, lines 341-366)

The DOM lookup `$('span.sc-4c172e97-0.ioLdWh').first().text()` yields the
total-results string (the empty string when the element is missing, which
is exactly what the `if (totalResultsString)` truthiness test rejects);
the embedding takes that string.

Regex `of\s*([\d,]+)\s*total results` with the `i` flag: matching the
lowercased haystack with the lowercase pattern is equivalent for ASCII.
The greedy `[\d,]+` and `\s*` runs are final since `t` (of `total`) is in
neither class and `\s` is not in `[\d,]`. -/

def configMaxPagesToFetch : ℕ := 5

def totalResultsAt (l : List Char) : Option (List Char) :=
  if ("of".toList).isPrefixOf l then
    if (((l.drop 2).dropWhile isJsSpace).takeWhile isDC).isEmpty then none
    else
      if ("total results".toList).isPrefixOf
          ((((l.drop 2).dropWhile isJsSpace).dropWhile isDC).dropWhile isJsSpace) then
        some (((l.drop 2).dropWhile isJsSpace).takeWhile isDC)
      else none
  else none

def totalResultsSearch : List Char → Option (List Char)
  | [] => none
  | c :: t =>
    match totalResultsAt (c :: t) with
    | some r => some r
    | none => totalResultsSearch t

def getTotalPages (s : List Char) : ℕ :=
  if s.isEmpty then 1
  else
    match totalResultsSearch (toLowerL s) with
    | none => 1
    | some run =>
      let raw := stripCommas run
      if raw.isEmpty then 1
      else
        let totalResults := natVal raw
        let calculatedPages : ℤ := ⌈(totalResults : ℚ) / 20⌉
        (min calculatedPages (configMaxPagesToFetch : ℤ)).toNat

/-! ## `fetchPageHTML` (src/services/fetch.service.ts, lines 14-45)

The transport is abstracted as one `FetchOutcome` per attempt number; the
loop, the 404 short-circuit, the retry bound and the delays are modelled
exactly.  The result records the produced value or error, the number of
HTTP attempts that were made, and the list of inter-attempt delays (each
entry is the number of milliseconds slept). -/

inductive FetchOutcome where
  | success (html : List Char)
  | failure (isAxios : Bool) (status : Option ℕ)
deriving DecidableEq, Repr

/-- `ScraperError` of src/errors.ts, carrying its message. -/
structure ScraperError where
  message : List Char
deriving DecidableEq, Repr

structure FetchTrace where
  result : Except ScraperError (List Char)
  attempts : ℕ
  delays : List ℕ
deriving Repr

def maxRetriesMsg (pageNumber : ℕ) : List Char :=
  ("Max retries reached for page ".toList) ++ natToDigits pageNumber ++ (". Giving up.".toList)

def exhaustedMsg (pageNumber : ℕ) : List Char :=
  ("Failed to fetch page ".toList) ++ natToDigits pageNumber ++ (" after multiple retries.".toList)

def fetchGo (maxFetchRetries retryDelayMs pageNumber : ℕ) (out : ℕ → FetchOutcome) :
    ℕ → ℕ → FetchTrace
  | 0, attempt => ⟨.error ⟨exhaustedMsg pageNumber⟩, attempt - 1, []⟩
  | fuel + 1, attempt =>
    if attempt ≤ maxFetchRetries + 1 then
      match out attempt with
      | .success html => ⟨.ok html, attempt, []⟩
      | .failure isAxios status =>
        if isAxios ∧ status = some 404 then ⟨.ok [], attempt, []⟩
        else if maxFetchRetries < attempt then
          ⟨.error ⟨maxRetriesMsg pageNumber⟩, attempt, []⟩
        else
          let r := fetchGo maxFetchRetries retryDelayMs pageNumber out fuel (attempt + 1)
          ⟨r.result, r.attempts, retryDelayMs :: r.delays⟩
    else ⟨.error ⟨exhaustedMsg pageNumber⟩, attempt - 1, []⟩

def fetchPageHTML (maxFetchRetries retryDelayMs pageNumber : ℕ) (out : ℕ → FetchOutcome) :
    FetchTrace :=
  fetchGo maxFetchRetries retryDelayMs pageNumber out (maxFetchRetries + 1) 1

/-! ## Records and search criteria -/

/-- A scraped listing record (`Partial<Property>` of the sources; fields a
partial record may lack are `Option`s). -/
structure PropertyRec where
  address : Option (List Char)
  url : Option (List Char)
  id : Option (List Char)
  tagline : Option (List Char)
  priceString : Option (List Char)
  parsedPrice : Option JSNum
  priceType : PriceType
  bedsString : Option (List Char)
  parsedBeds : Option ParsedBedsResult
  bathsString : Option (List Char)
  propertyTypeString : Option (List Char)
  ber : Option (List Char)
  latitude : Option JSNum
  longitude : Option JSNum
deriving DecidableEq, Repr

/-- JS truthiness of a possibly-absent string. -/
def truthyO (o : Option (List Char)) : Bool :=
  match o with
  | none => false
  | some l => !l.isEmpty

/-- The `location` criterion is `string | string[]`. -/
inductive LocParam where
  | single (s : List Char)
  | multi (ls : List (List Char))
deriving DecidableEq, Repr

/-- `SearchRentalPropertiesParams` (the fields the filters read). -/
structure SearchParams where
  location : Option LocParam
  minPrice : Option ℚ
  maxPrice : Option ℚ
  numBeds : Option ℚ
  propertyType : Option (List Char)
deriving DecidableEq, Repr

/-- The JS comparison `x > k` (false on `NaN`). -/
def jsGtB (x : JSNum) (k : ℚ) : Bool :=
  match x with
  | .num q => decide (k < q)
  | .inf => true
  | _ => false

/-! ## The filter engine

`filterProperties` (src/services/filter.service.ts, lines 9-70) and the
inline filter of `handleSearchRentalPropertiesScraping`
(src/services/daftScraper.service.ts, lines 627-741).  The price, beds and
property-type checks are textually identical in the two files and are
shared below; the two location rules and the `noFiltersActive`
short-circuit (present only in the scraper) are kept separate. -/

/-- Price check (filter.service.ts lines 12-16 = daftScraper.service.ts
lines 648-653). -/
def priceCheck (f : SearchParams) (p : PropertyRec) : Bool :=
  if f.minPrice.isSome || f.maxPrice.isSome then
    if p.priceType ≠ PriceType.numeric then false
    else
      match p.parsedPrice with
      | none => false
      | some v =>
        if (match f.minPrice with | some m => jsLtB v m | none => false) then false
        else if (match f.maxPrice with | some m => jsGtB v m | none => false) then false
        else true
  else true

/-- Beds check (filter.service.ts lines 19-26 = daftScraper.service.ts
lines 656-664).  The JS `min === undefined` test can never fire (every
produced range has both bounds) and is dropped. -/
def bedsCheck (f : SearchParams) (p : PropertyRec) : Bool :=
  match f.numBeds with
  | none => true
  | some nb =>
    match p.parsedBeds with
    | none => false
    | some pb => !(decide (nb < (pb.min : ℚ)) || decide ((pb.max : ℚ) < nb))

/-- Property-type check (filter.service.ts lines 29-32 = daftScraper
lines 667-670); `if (filters.propertyType)` is JS truthiness, so an empty
requested type imposes no constraint. -/
def typeCheck (f : SearchParams) (p : PropertyRec) : Bool :=
  match f.propertyType with
  | none => true
  | some ty =>
    if ty.isEmpty then true
    else
      match p.propertyTypeString with
      | none => false
      | some pts =>
        if pts.isEmpty then false
        else containsSub (toLowerL ty) (toLowerL pts)

/-- The `/dublin\s*(\d+)/i` capture (on lowercased text). -/
def dublinPostalAt (l : List Char) : Option (List Char) :=
  if ("dublin".toList).isPrefixOf l then
    let a := (l.drop 6).dropWhile isJsSpace
    let ds := a.takeWhile isDigitC
    if ds.isEmpty then none else some ds
  else none

def dublinPostalDigits : List Char → Option (List Char)
  | [] => none
  | c :: t =>
    match dublinPostalAt (c :: t) with
    | some r => some r
    | none => dublinPostalDigits t

/-- Normalised requested locations: lowercase, trim, drop empties
(filter.service.ts lines 36-38 = daftScraper lines 674-678). -/
def requestedLocations (f : SearchParams) : List (List Char) :=
  (match f.location with
    | none => []
    | some (.single s) => [s]
    | some (.multi ls) => ls).map (fun l => trimL (toLowerL l)) |>.filter (fun l => !l.isEmpty)

/-- JS truthiness of the `location` field (`''` is falsy, an array — even
empty — is truthy). -/
def locationActive (f : SearchParams) : Bool :=
  match f.location with
  | none => false
  | some (.single s) => !s.isEmpty
  | some (.multi _) => true

/-- One requested location against a lowercased address, filter.service.ts
lines 44-61.  The `ringsend` branch returns the three-synonym test
directly. -/
def fsSingleMatch (addrLower req : List Char) : Bool :=
  if req = "ringsend".toList then
    ["ringsend".toList, "irishtown".toList, "grand canal dock".toList].any
      (fun t => containsSub t addrLower)
  else if containsSub req addrLower then true
  else
    match dublinPostalDigits req with
    | some ds => containsSub (("dublin ".toList) ++ ds) addrLower || matchWord ('d' :: ds) addrLower
    | none => false

/-- One requested location against a lowercased address, the scraper
variant (daftScraper.service.ts lines 689-730): the `ringsend` synonym
list also has the Dublin 2/4 postal forms, plus a whole-word `d4`/`d2`
fallback. -/
def scSingleMatch (addrLower req : List Char) : Bool :=
  if req = "ringsend".toList then
    (["ringsend".toList, "irishtown".toList, "grand canal dock".toList, "dublin 4".toList,
        "dublin 2".toList, " d4".toList, " d2".toList].any (fun t => containsSub t addrLower)) ||
      (matchWord ("d4".toList) addrLower || matchWord ("d2".toList) addrLower)
  else if containsSub req addrLower then true
  else
    match dublinPostalDigits req with
    | some ds => containsSub (("dublin ".toList) ++ ds) addrLower || matchWord ('d' :: ds) addrLower
    | none => false

/-- The lowercased address used by the location filters
(`p.address ? p.address.toLowerCase() : ''`). -/
def addrLowerOf (p : PropertyRec) : List Char :=
  match p.address with
  | some a => toLowerL a
  | none => []

/-- Location check of filter.service.ts lines 35-66. -/
def locationCheck (f : SearchParams) (p : PropertyRec) : Bool :=
  if locationActive f then
    let reqs := requestedLocations f
    if reqs.isEmpty then true
    else
      let al := addrLowerOf p
      if al.isEmpty then false
      else reqs.any (fsSingleMatch al)
  else true

/-- Location check of daftScraper.service.ts lines 673-738. -/
def scraperLocationCheck (f : SearchParams) (p : PropertyRec) : Bool :=
  if locationActive f then
    let reqs := requestedLocations f
    if reqs.isEmpty then true
    else
      let al := addrLowerOf p
      if al.isEmpty then false
      else reqs.any (scSingleMatch al)
  else true

/-- The record predicate of `filterProperties` (filter.service.ts lines
10-68; the early `return false`s AND-combine). -/
def filterPred (f : SearchParams) (p : PropertyRec) : Bool :=
  priceCheck f p && bedsCheck f p && typeCheck f p && locationCheck f p

/-- `filterProperties` (filter.service.ts line 9). -/
def filterProperties (properties : List PropertyRec) (filters : SearchParams) :
    List PropertyRec :=
  properties.filter (filterPred filters)

/-- `noFiltersActive` of daftScraper.service.ts lines 628-632: only the
four non-location criteria are consulted. -/
def scraperNoFiltersActive (f : SearchParams) : Bool :=
  f.minPrice.isNone && f.maxPrice.isNone && f.numBeds.isNone && f.propertyType.isNone

/-- The record predicate of the scraper's inline filter
(daftScraper.service.ts lines 627-741). -/
def scraperFilterPred (f : SearchParams) (p : PropertyRec) : Bool :=
  if scraperNoFiltersActive f then true
  else priceCheck f p && bedsCheck f p && typeCheck f p && scraperLocationCheck f p

/-- The filter application of daftScraper.service.ts line 627. -/
def scraperFilterProperties (properties : List PropertyRec) (f : SearchParams) :
    List PropertyRec :=
  properties.filter (scraperFilterPred f)

/-! ## URL segments, `formatBer` -/

/-- `String.prototype.split(sep)`. -/
def splitOnAux (sep : Char) : List Char → List Char → List (List Char)
  | [], acc => [acc.reverse]
  | c :: t, acc =>
    if c = sep then acc.reverse :: splitOnAux sep t [] else splitOnAux sep t (c :: acc)

def splitOnChar (sep : Char) (l : List Char) : List (List Char) :=
  splitOnAux sep l []

/-- `urlParts[urlParts.length - 1]`: the trailing path segment of a
relative URL.  `split` never yields an empty array, so the default of
`getLastD` is never used. -/
def lastSegment (rel : List Char) : List Char :=
  (splitOnChar '/' rel).getLastD []

/-- `String.prototype.replace(needle, '')` for a plain-string needle
(first occurrence only). -/
def replaceFirst (nd : List Char) : List Char → List Char
  | [] => []
  | c :: t =>
    if nd.isPrefixOf (c :: t) then (c :: t).drop nd.length
    else c :: replaceFirst nd t

/-- `formatBer` (src/utils/parser.utils.ts, lines 167-174). -/
def formatBer (ber : Option (List Char)) : Option (List Char) :=
  match ber with
  | none => none
  | some b =>
    if b.isEmpty then none
    else
      let cleanedBer := trimL (replaceFirst ("BER ".toList) b)
      if cleanedBer = "SI_666".toList then some ("Exempt".toList) else some cleanedBer

/-- The default `config.daft.baseUrl` (src/config.ts). -/
def daftBaseUrl : List Char :=
  "https://www.daft.ie".toList

/-! ## Multi-unit cards of the result list
(src/services/parser.service.ts lines 126-195 = daftScraper.service.ts
lines 382-452)

Per sub-link the extractor reads the `href` attribute, a price text, and
the beds/baths/type texts from either the `eKLMRy` details container (all
three present as — possibly empty — strings) or, failing that, from the
`kzXTWf` info spans (missing spans leave the fields `undefined`).  Those
extracted texts are the input of the embedding. -/

structure UnitAnchor where
  href : Option (List Char)
  priceText : List Char
  details : Option (List Char × List Char × List Char)
  infoSpans : List (List Char)
deriving DecidableEq, Repr

/-- A pushed `Unit` (the fields the extractor sets). -/
structure UnitRec where
  url : List Char
  id : List Char
  priceString : List Char
  parsedPrice : Option JSNum
  priceType : PriceType
  bedsString : Option (List Char)
  parsedBeds : Option ParsedBedsResult
  bathsString : Option (List Char)
  propertyTypeString : Option (List Char)
deriving DecidableEq, Repr

/-- Beds/baths/type strings of one sub-link (lines 149-180). -/
def unitFields (a : UnitAnchor) :
    Option (List Char) × Option (List Char) × Option (List Char) :=
  match a.details with
  | some (b, ba, t) => (some b, some ba, some t)
  | none =>
    match a.infoSpans with
    | [] => (none, none, none)
    | b :: rest => (some b, rest.head?, (rest.drop 1).head?)

/-- One sub-link of a multi-unit card (lines 130-195): skipped without an
`href`; pushed only behind the truthiness test of lines 183-191 (the
`property.units &&` conjunct is always true — the list was just created —
and the outer `if (unitDetails.id)` is subsumed by the inner test). -/
def mkUnit (a : UnitAnchor) : Option UnitRec :=
  match a.href with
  | none => none
  | some rel =>
    let url := daftBaseUrl ++ rel
    let id := lastSegment rel
    let pr := parsePrice (some a.priceText)
    let fb := unitFields a
    if !id.isEmpty && !url.isEmpty && !a.priceText.isEmpty &&
        truthyO fb.1 && truthyO fb.2.1 && truthyO fb.2.2 then
      some ⟨url, id, a.priceText, pr.value, pr.type, fb.1, parseBeds fb.1, fb.2.1, fb.2.2⟩
    else none

/-- The `units` list of one card. -/
def cardUnits (anchors : List UnitAnchor) : List UnitRec :=
  anchors.filterMap mkUnit

/-! ## The detail-page enricher
(daftScraper.service.ts lines 489-609; the same sub-unit logic is in
src/services/parser.service.ts lines 228-316, which stores the produced
records in `units` for the caller to flatten)

Inputs, each the result of one selector lookup on the detail page: the
`extractLatLng` result for the map container, the list of
`a[data-testid="sub-unit"]` anchors (with their extracted texts), and the
detail-page BER label. -/

structure SubUnitAnchor where
  href : Option (List Char)
  priceText : List Char
  bedsText : List Char
  bathsText : List Char
  typeText : List Char
  berLabel : Option (List Char)
deriving DecidableEq, Repr

/-- Lines 490-497: refresh the coordinates from the detail page. -/
def applyDetailLatLng (p : PropertyRec) (ll : Option (JSNum × JSNum)) : PropertyRec :=
  match ll with
  | some (la, ln) => { p with latitude := some la, longitude := some ln }
  | none => p

/-- One sub-unit anchor (lines 505-569): inherits address, tagline and
coordinates from the parent; dropped without an `href`, and kept only
behind the essential-data test of line 556
(`id && url && address && priceString`). -/
def mkSubProperty (parent : PropertyRec) (a : SubUnitAnchor) : Option PropertyRec :=
  match a.href with
  | none => none
  | some rel =>
    let url := daftBaseUrl ++ rel
    let id := lastSegment rel
    let pr := parsePrice (some a.priceText)
    let pb := parseBeds (some a.bedsText)
    let ty :=
      if (match pb with | some r => r.isStudio | none => false) && a.typeText.isEmpty then
        "Studio".toList
      else a.typeText
    let ber := formatBer a.berLabel
    if !id.isEmpty && !url.isEmpty && truthyO parent.address && !a.priceText.isEmpty then
      some
        { address := parent.address
          url := some url
          id := some id
          tagline := parent.tagline
          priceString := some a.priceText
          parsedPrice := pr.value
          priceType := pr.type
          bedsString := some a.bedsText
          parsedBeds := pb
          bathsString := some a.bathsText
          propertyTypeString := some ty
          ber := ber
          latitude := parent.latitude
          longitude := parent.longitude }
    else none

/-- The enricher: with at least one sub-unit anchor the parent is replaced
by the per-anchor records (lines 501-575); otherwise the single record is
kept — after a BER backfill — iff it has address, url and id (lines
576-599). -/
def enrichDetail (parent : PropertyRec) (detailLatLng : Option (JSNum × JSNum))
    (anchors : List SubUnitAnchor) (detailBer : Option (List Char)) : List PropertyRec :=
  let p := applyDetailLatLng parent detailLatLng
  if anchors.isEmpty then
    let p2 :=
      if truthyO p.ber then p
      else
        match detailBer with
        | some b => if !b.isEmpty then { p with ber := formatBer (some b) } else p
        | none => p
    if truthyO p2.address && truthyO p2.url && truthyO p2.id then [p2] else []
  else anchors.filterMap (mkSubProperty p)

/-! ## The `parsePrice` result invariant -/

/-- The invariant of a price-parse result: numeric parses carry an exact
non-negative value, the other kinds carry `null`. -/
def goodResult (r : ParsedPriceResult) : Prop :=
  (r.type = .numeric → ∃ q : ℚ, r.value = some (.num q) ∧ 0 ≤ q) ∧
    (r.type = .on_application ∨ r.type = .unknown → r.value = none)

/-! ### Lemmas about digits and numerals -/

theorem isDigitC_digitChar {d : ℕ} (h : d < 10) : isDigitC (digitChar d) = true := by
  interval_cases d <;> decide

theorem toNat_digitChar {d : ℕ} (h : d < 10) : (digitChar d).toNat = 48 + d := by
  interval_cases d <;> decide

theorem natToDigitsAux_ne_nil (fuel n : ℕ) : natToDigitsAux fuel n ≠ [] := by
  cases fuel with
  | zero => simp [natToDigitsAux]
  | succ fuel =>
    by_cases h : n < 10 <;> simp [natToDigitsAux, h]

theorem natToDigits_ne_nil (n : ℕ) : natToDigits n ≠ [] :=
  natToDigitsAux_ne_nil n n

theorem mem_natToDigitsAux {fuel n : ℕ} (hf : n ≤ fuel) :
    ∀ c ∈ natToDigitsAux fuel n, isDigitC c = true := by
  induction fuel generalizing n with
  | zero =>
    intro c hc
    have hn : n = 0 := Nat.le_zero.mp hf
    subst hn
    simp only [natToDigitsAux, List.mem_singleton] at hc
    subst hc
    exact isDigitC_digitChar (by omega)
  | succ fuel ih =>
    intro c hc
    by_cases h : n < 10
    · simp only [natToDigitsAux, if_pos h, List.mem_singleton] at hc
      subst hc
      exact isDigitC_digitChar h
    · simp only [natToDigitsAux, if_neg h, List.mem_append, List.mem_singleton] at hc
      rcases hc with hc | hc
      · exact ih (by omega) c hc
      · subst hc
        exact isDigitC_digitChar (Nat.mod_lt _ (by omega))

theorem mem_natToDigits {n : ℕ} : ∀ c ∈ natToDigits n, isDigitC c = true :=
  mem_natToDigitsAux (Nat.le_refl n)

theorem natVal_append_singleton (l : List Char) (c : Char) :
    natVal (l ++ [c]) = 10 * natVal l + (c.toNat - 48) := by
  simp [natVal, List.foldl_append]

theorem natVal_natToDigitsAux {fuel n : ℕ} (hf : n ≤ fuel) :
    natVal (natToDigitsAux fuel n) = n := by
  induction fuel generalizing n with
  | zero =>
    have hn : n = 0 := Nat.le_zero.mp hf
    subst hn
    simp [natToDigitsAux, natVal, digitChar]
  | succ fuel ih =>
    by_cases h : n < 10
    · simp [natToDigitsAux, if_pos h, natVal, toNat_digitChar h]
    · have h10 : n / 10 ≤ fuel := by
        have := Nat.div_lt_self (by omega : 0 < n) (by omega : 1 < 10)
        omega
      simp only [natToDigitsAux, if_neg h, natVal_append_singleton, ih h10]
      have hm : (digitChar (n % 10)).toNat = 48 + n % 10 :=
        toNat_digitChar (Nat.mod_lt _ (by omega))
      rw [hm]
      omega

theorem natVal_natToDigits (n : ℕ) : natVal (natToDigits n) = n :=
  natVal_natToDigitsAux (Nat.le_refl n)

/-! ## Generic list and character lemmas -/

theorem mem_of_takeWhile {p : Char → Bool} :
    ∀ {l : List Char} {x : Char}, x ∈ l.takeWhile p → p x = true ∧ x ∈ l := by
  intro l
  induction l with
  | nil => intro x hx; simp [List.takeWhile] at hx
  | cons c t ih =>
    intro x hx
    rw [List.takeWhile_cons] at hx
    by_cases hc : p c
    · rw [if_pos hc] at hx
      rcases List.mem_cons.mp hx with rfl | hx
      · exact ⟨hc, List.mem_cons_self _ _⟩
      · rcases ih hx with ⟨h1, h2⟩
        exact ⟨h1, List.mem_cons_of_mem _ h2⟩
    · rw [if_neg hc] at hx
      simp at hx

theorem takeWhile_all {p : Char → Bool} {l : List Char} (h : ∀ c ∈ l, p c = true) :
    l.takeWhile p = l := by
  induction l with
  | nil => rfl
  | cons c t ih =>
    rw [List.takeWhile_cons, if_pos (h c (List.mem_cons_self c t))]
    rw [ih (fun x hx => h x (List.mem_cons_of_mem _ hx))]

theorem dropWhile_all {p : Char → Bool} {l : List Char} (h : ∀ c ∈ l, p c = true) :
    l.dropWhile p = [] := by
  induction l with
  | nil => rfl
  | cons c t ih =>
    rw [List.dropWhile_cons, if_pos (h c (List.mem_cons_self c t))]
    exact ih (fun x hx => h x (List.mem_cons_of_mem _ hx))

theorem takeWhile_append_all {p : Char → Bool} {l r : List Char}
    (h : ∀ c ∈ l, p c = true) : (l ++ r).takeWhile p = l ++ r.takeWhile p := by
  induction l with
  | nil => simp
  | cons c t ih =>
    rw [List.cons_append, List.takeWhile_cons, if_pos (h c (List.mem_cons_self c t))]
    rw [ih (fun x hx => h x (List.mem_cons_of_mem _ hx))]
    rfl

theorem dropWhile_append_all {p : Char → Bool} {l r : List Char}
    (h : ∀ c ∈ l, p c = true) : (l ++ r).dropWhile p = r.dropWhile p := by
  induction l with
  | nil => simp
  | cons c t ih =>
    rw [List.cons_append, List.dropWhile_cons, if_pos (h c (List.mem_cons_self c t))]
    exact ih (fun x hx => h x (List.mem_cons_of_mem _ hx))

theorem mem_of_isPrefixOf {nd l : List Char} (h : nd.isPrefixOf l) :
    ∀ x ∈ nd, x ∈ l := by
  intro x hx
  exact (List.isPrefixOf_iff_prefix.mp h).subset hx

theorem containsSub_eq_false {nd hay : List Char} {x : Char} (hx : x ∈ nd) (h : x ∉ hay) :
    containsSub nd hay = false := by
  induction hay with
  | nil =>
    have : nd ≠ [] := by intro he; subst he; simp at hx
    simpa [containsSub] using this
  | cons c t ih =>
    have h1 : nd.isPrefixOf (c :: t) = false := by
      by_contra hc
      have := mem_of_isPrefixOf (Bool.of_not_eq_false hc) x hx
      exact h this
    have h2 : containsSub nd t = false := ih (fun hm => h (List.mem_cons_of_mem _ hm))
    simp [containsSub, h1, h2]

theorem containsSub_cons (nd : List Char) (c : Char) (t : List Char) :
    containsSub nd (c :: t) = (nd.isPrefixOf (c :: t) || containsSub nd t) := rfl

theorem containsSub_nil_left : ∀ hay : List Char, containsSub [] hay = true
  | [] => rfl
  | c :: t => by simp [containsSub, List.isPrefixOf]

theorem containsSub_of_append {nd : List Char} :
    ∀ {pre post : List Char}, containsSub nd (pre ++ nd ++ post) = true := by
  intro pre
  induction pre with
  | nil =>
    intro post
    cases nd with
    | nil => simpa using containsSub_nil_left post
    | cons c t =>
      rw [List.nil_append, List.cons_append, containsSub_cons]
      have hp : (c :: t).isPrefixOf (c :: (t ++ post)) = true :=
        List.isPrefixOf_iff_prefix.mpr ⟨post, by simp⟩
      rw [hp, Bool.true_or]
  | cons c t ih =>
    intro post
    rw [List.cons_append, List.cons_append, containsSub_cons, ih]
    simp

theorem isDigitC_range {c : Char} (h : isDigitC c = true) :
    48 ≤ c.toNat ∧ c.toNat ≤ 57 := by
  simpa [isDigitC] using h

theorem digit_ne {c d : Char} (h : isDigitC c = true)
    (hd : d.toNat < 48 ∨ 57 < d.toNat) : c ≠ d := by
  obtain ⟨h1, h2⟩ := isDigitC_range h
  intro he
  subst he
  omega

theorem isJsSpace_eq_false_of_digit {c : Char} (h : isDigitC c = true) :
    isJsSpace c = false := by
  obtain ⟨h1, h2⟩ := isDigitC_range h
  simp only [isJsSpace, Bool.or_eq_false_iff, decide_eq_false_iff_not]
  refine ⟨⟨⟨⟨⟨?_, ?_⟩, ?_⟩, ?_⟩, ?_⟩, ?_⟩ <;> (rintro rfl; exact absurd h1 (by decide))

theorem toLower_eq_self_of_lt {c : Char} (h : c.toNat < 65) : c.toLower = c := by
  show (if c.toNat ≥ 65 ∧ c.toNat ≤ 90 then Char.ofNat (c.toNat + 32) else c) = c
  rw [if_neg]
  omega

theorem toLower_digit {c : Char} (h : isDigitC c = true) : c.toLower = c :=
  toLower_eq_self_of_lt (by obtain ⟨_, h2⟩ := isDigitC_range h; omega)

theorem toLowerL_all_digits {l : List Char} (h : ∀ c ∈ l, isDigitC c = true) :
    toLowerL l = l := by
  induction l with
  | nil => rfl
  | cons c t ih =>
    simp only [toLowerL, List.map_cons]
    rw [toLower_digit (h c (List.mem_cons_self c t))]
    have := ih (fun x hx => h x (List.mem_cons_of_mem _ hx))
    simpa [toLowerL] using this

theorem not_mem_digits {l : List Char} (h : ∀ c ∈ l, isDigitC c = true) {d : Char}
    (hd : d.toNat < 48 ∨ 57 < d.toNat) : d ∉ l := by
  intro hm
  exact absurd rfl (digit_ne (h d hm) hd)

theorem stripCommas_digits {l : List Char} (h : ∀ c ∈ l, isDigitC c = true) :
    stripCommas l = l := by
  unfold stripCommas
  rw [List.filter_eq_self]
  intro a ha
  simpa using digit_ne (h a ha) (by left; decide)

/-! ## Lemmas about `jsParseFloat` -/

theorem jsParseFloat_all_digits {ds : List Char} (hne : ds ≠ [])
    (h : ∀ c ∈ ds, isDigitC c = true) : jsParseFloat ds = .num (natVal ds) := by
  obtain ⟨d, t, rfl⟩ : ∃ d t, ds = d :: t := by
    cases ds with
    | nil => exact absurd rfl hne
    | cons d t => exact ⟨d, t, rfl⟩
  have hd : isDigitC d = true := h d (List.mem_cons_self _ _)
  have h1 : (d :: t).dropWhile isJsSpace = d :: t := by
    rw [List.dropWhile_cons, if_neg]
    simp [isJsSpace_eq_false_of_digit hd]
  have h2 : signSplit (d :: t) = (false, d :: t) := by
    have hp : d ≠ '+' := digit_ne hd (Or.inl (by decide))
    have hmm : d ≠ '-' := digit_ne hd (Or.inl (by decide))
    simp [signSplit, hp, hmm]
  have h3 : ("Infinity".toList).isPrefixOf (d :: t) = false := by
    have he : "Infinity".toList = 'I' :: "nfinity".toList := rfl
    rw [he, List.isPrefixOf_cons₂]
    have hne2 : ('I' == d) = false :=
      beq_eq_false_iff_ne.mpr (Ne.symm (digit_ne hd (Or.inr (by decide))))
    rw [hne2, Bool.false_and]
  have h4 : (d :: t).takeWhile isDigitC = d :: t := takeWhile_all h
  have h5 : (d :: t).dropWhile isDigitC = [] := dropWhile_all h
  simp only [jsParseFloat, h1, h2, h3, h4, h5, Bool.false_eq_true, if_false]
  have e0 : natVal ([] : List Char) = 0 := rfl
  have e1 : expVal [] = 0 := rfl
  simp only [List.isEmpty_cons, Bool.false_and, Bool.false_eq_true, if_false, e0, e1,
    List.length_nil]
  norm_num

theorem jsParseFloat_shape {l : List Char} (hm : '-' ∉ l) (hI : 'I' ∉ l) :
    jsParseFloat l = .nan ∨ ∃ q : ℚ, jsParseFloat l = .num q ∧ 0 ≤ q := by
  have hsub1 : ∀ x, x ∈ l.dropWhile isJsSpace → x ∈ l :=
    fun x hx => (List.dropWhile_sublist isJsSpace).mem hx
  have hm1 : '-' ∉ l.dropWhile isJsSpace := fun hx => hm (hsub1 _ hx)
  have hI1 : 'I' ∉ l.dropWhile isJsSpace := fun hx => hI (hsub1 _ hx)
  have hneg : (signSplit (l.dropWhile isJsSpace)).1 = false ∧
      ∀ x, x ∈ (signSplit (l.dropWhile isJsSpace)).2 → x ∈ l.dropWhile isJsSpace := by
    unfold signSplit
    cases hc : l.dropWhile isJsSpace with
    | nil => simp
    | cons c t =>
      have hcm : c ≠ '-' := by
        intro he
        exact hm1 (hc ▸ (he ▸ List.mem_cons_self c t))
      by_cases hp : c = '+'
      · simp only [if_pos hp]
        exact ⟨by trivial, fun x hx => List.mem_cons_of_mem _ hx⟩
      · simp only [if_neg hp, if_neg hcm]
        exact ⟨by trivial, fun x hx => hx⟩
  obtain ⟨hneg1, hsub2⟩ := hneg
  have hInf : ("Infinity".toList).isPrefixOf (signSplit (l.dropWhile isJsSpace)).2 = false := by
    by_contra hc
    have hp := Bool.of_not_eq_false hc
    have hmem : 'I' ∈ (signSplit (l.dropWhile isJsSpace)).2 :=
      mem_of_isPrefixOf hp 'I' (by decide)
    exact hI1 (hsub2 _ hmem)
  simp only [jsParseFloat, hneg1, hInf, Bool.false_eq_true, if_false]
  split
  · exact Or.inl rfl
  · refine Or.inr ⟨_, rfl, ?_⟩
    have h10 : (0 : ℚ) ≤ 10 := by norm_num
    refine mul_nonneg (add_nonneg (Nat.cast_nonneg _) (div_nonneg (Nat.cast_nonneg _) ?_)) ?_
    · positivity
    · exact zpow_nonneg h10 _

theorem good_unknown : goodResult ⟨none, .unknown⟩ :=
  ⟨fun h => by simp at h, fun _ => rfl⟩

theorem good_onapp : goodResult ⟨none, .on_application⟩ :=
  ⟨fun h => by simp at h, fun _ => rfl⟩

theorem good_numeric {q : ℚ} (hq : 0 ≤ q) : goodResult ⟨some (.num q), .numeric⟩ := by
  constructor
  · intro _
    exact ⟨q, rfl, hq⟩
  · intro h
    rcases h with h | h <;> simp at h

theorem weeklyToMonthly_num {q : ℚ} (hq : 0 ≤ q) :
    weeklyToMonthly (.num q) = .num ((⌊q * 52 / 12 + 1 / 2⌋ : ℤ) : ℚ) ∧
      (0 : ℚ) ≤ ((⌊q * 52 / 12 + 1 / 2⌋ : ℤ) : ℚ) := by
  constructor
  · rfl
  · have h1 : (0 : ℚ) ≤ q * 52 / 12 + 1 / 2 := by positivity
    have h2 : (0 : ℤ) ≤ ⌊q * 52 / 12 + 1 / 2⌋ := by
      rw [Int.le_floor]
      exact_mod_cast h1
    exact_mod_cast h2

theorem captureSplit_mem {m : List Char} {x : Char} (hx : x ∈ (captureSplit m).1) :
    isDC x = true ∨ x = '.' ∨ isDigitC x = true := by
  unfold captureSplit at hx
  split at hx
  · split at hx
    · rename_i hcond
      simp only [List.mem_append, List.mem_cons, List.mem_singleton,
        List.not_mem_nil, or_false] at hx
      rcases hx with hx | hx | hx | hx
      · exact Or.inl (mem_of_takeWhile hx).1
      · subst hx
        simp only [Bool.and_eq_true, decide_eq_true_eq] at hcond
        exact Or.inr (Or.inl hcond.1.1)
      · subst hx
        simp only [Bool.and_eq_true, decide_eq_true_eq] at hcond
        exact Or.inr (Or.inr hcond.1.2)
      · subst hx
        simp only [Bool.and_eq_true, decide_eq_true_eq] at hcond
        exact Or.inr (Or.inr hcond.2)
    · exact Or.inl (mem_of_takeWhile hx).1
  · exact Or.inl (mem_of_takeWhile hx).1

theorem capture_no_minus {m : List Char} : '-' ∉ stripCommas (captureSplit m).1 := by
  intro hx
  have hx2 := List.mem_of_mem_filter hx
  rcases captureSplit_mem hx2 with h | h | h
  · simp [isDC, isDigitC] at h
  · exact absurd h (by decide)
  · simp [isDigitC] at h

theorem capture_no_I {m : List Char} : 'I' ∉ stripCommas (captureSplit m).1 := by
  intro hx
  have hx2 := List.mem_of_mem_filter hx
  rcases captureSplit_mem hx2 with h | h | h
  · simp [isDC, isDigitC] at h
  · exact absurd h (by decide)
  · simp [isDigitC] at h

theorem r3Rest_good (n : List Char) {q : ℚ} (hq : 0 ≤ q) :
    goodResult (r3Rest n (.num q)) := by
  unfold r3Rest
  split
  · exact good_unknown
  · split
    · exact good_unknown
    · split
      · exact good_numeric hq
      · exact good_unknown

theorem r3Candidate_chars {s cnd : List Char} (hc : r3Candidate s = some cnd) :
    ∀ x ∈ cnd, isDigitC x = true ∨ x = '.' := by
  unfold r3Candidate at hc
  split at hc
  · injection hc with hc
    subst hc
    intro x hx
    have := List.of_mem_filter hx
    simpa using this
  · exact absurd hc (by simp)

theorem r3Settle_good (n : List Char) {cnd : List Char}
    (hchars : ∀ x ∈ cnd, isDigitC x = true ∨ x = '.') : goodResult (r3Settle n cnd) := by
  have hm : '-' ∉ cnd := by
    intro hx
    rcases hchars _ hx with h | h
    · simp [isDigitC] at h
    · exact absurd h (by decide)
  have hI : 'I' ∉ cnd := by
    intro hx
    rcases hchars _ hx with h | h
    · simp [isDigitC] at h
    · exact absurd h (by decide)
  unfold r3Settle
  split
  · exact good_unknown
  · rename_i hne
    rcases jsParseFloat_shape hm hI with hnan | ⟨q, heq2, hq0⟩
    · exact absurd hnan hne
    · rw [heq2]
      split
      · split
        · exact good_numeric hq0
        · exact r3Rest_good n hq0
      · exact r3Rest_good n hq0

theorem r3Fallback_good (s n : List Char) : goodResult (r3Fallback s n) := by
  unfold r3Fallback
  split
  · exact good_unknown
  · rename_i cnd hc
    exact r3Settle_good n (r3Candidate_chars hc)

theorem r2Match_capture {l cap pw : List Char} (hc : r2Match l = some (cap, pw)) :
    ∃ m : List Char, cap = (captureSplit m).1 := by
  unfold r2Match at hc
  split at hc
  · exact absurd hc (by simp)
  · rename_i c rest
    split at hc
    · split at hc
      · injection hc with hc
        exact ⟨_, (congrArg Prod.fst hc.symm : _)⟩
      · exact absurd hc (by simp)
    · exact absurd hc (by simp)

theorem afterR1_good (s n : List Char) : goodResult (afterR1 s n) := by
  unfold afterR1
  split
  · rename_i cap pw hc
    obtain ⟨m, rfl⟩ := r2Match_capture hc
    split
    · exact good_unknown
    · rename_i hne
      rcases jsParseFloat_shape (capture_no_minus (m := m)) (capture_no_I (m := m)) with
        hnan | ⟨q, heq2, hq0⟩
      · exact absurd hnan hne
      · rw [heq2]
        split
        · rcases weeklyToMonthly_num hq0 with ⟨hw, hw0⟩
          rw [hw]
          exact good_numeric hw0
        · exact good_numeric hq0
  · exact r3Fallback_good s n

theorem r1AtEuro_capture {rest : List Char} {r : List Char × Option (List Char)}
    (hm : r1AtEuro rest = some r) : ∃ m : List Char, r.1 = (captureSplit m).1 := by
  unfold r1AtEuro at hm
  split at hm
  · exact absurd hm (by simp)
  · split at hm
    · injection hm with hm
      exact ⟨_, (congrArg Prod.fst hm.symm : _)⟩
    · exact absurd hm (by simp)

theorem r1MatchAt_capture {l : List Char} {r : List Char × Option (List Char)}
    (hm : r1MatchAt l = some r) : ∃ m : List Char, r.1 = (captureSplit m).1 := by
  unfold r1MatchAt at hm
  split at hm
  · exact absurd hm (by simp)
  · split at hm
    · exact r1AtEuro_capture hm
    · split at hm
      · injection hm with hm
        exact ⟨_, (congrArg Prod.fst hm.symm : _)⟩
      · exact absurd hm (by simp)

theorem r1Search_capture {l : List Char} {cap : List Char} {period : Option (List Char)}
    (hc : r1Search l = some (cap, period)) : ∃ m : List Char, cap = (captureSplit m).1 := by
  induction l with
  | nil => simp [r1Search] at hc
  | cons c t ih =>
    rw [r1Search] at hc
    cases hm : r1MatchAt (c :: t) with
    | some r =>
      rw [hm] at hc
      injection hc with hc
      subst hc
      exact r1MatchAt_capture hm
    | none =>
      rw [hm] at hc
      exact ih hc

theorem r1Settle_good (s n : List Char) {cap : List Char} (period : Option (List Char))
    (hcap : ∃ m : List Char, cap = (captureSplit m).1) :
    goodResult (r1Settle s n cap period) := by
  obtain ⟨m, rfl⟩ := hcap
  unfold r1Settle
  split
  · exact good_unknown
  · rename_i hne
    rcases jsParseFloat_shape (capture_no_minus (m := m)) (capture_no_I (m := m)) with
      hnan | ⟨q, heq2, hq0⟩
    · exact absurd hnan hne
    · rw [heq2]
      split
      · split
        · rcases weeklyToMonthly_num hq0 with ⟨hw, hw0⟩
          rw [hw]
          exact good_numeric hw0
        · exact good_numeric hq0
      · split
        · exact good_numeric hq0
        · exact afterR1_good s n

theorem parsePriceMain_good (s n : List Char) : goodResult (parsePriceMain s n) := by
  unfold parsePriceMain
  split
  · exact good_onapp
  · split
    · rename_i cap period hc
      exact r1Settle_good s n period (r1Search_capture hc)
    · exact afterR1_good s n

theorem parsePrice_good (input : Option (List Char)) : goodResult (parsePrice input) := by
  unfold parsePrice
  split
  · exact good_unknown
  · split
    · exact good_unknown
    · exact parsePriceMain_good _ _

/-! ## Evaluating `parsePrice` on `€<digits> per <token>` and on bare
digit strings -/

theorem contains_eq_false_of_digits {l : List Char} (h : ∀ c ∈ l, isDigitC c = true)
    {d : Char} (hd : d.toNat < 48 ∨ 57 < d.toNat) : l.contains d = false := by
  induction l with
  | nil => rfl
  | cons c t ih =>
    rw [List.contains_cons]
    have hne : (d == c) = false :=
      beq_eq_false_iff_ne.mpr (Ne.symm (digit_ne (h c (List.mem_cons_self _ _)) hd))
    rw [hne, Bool.false_or]
    exact ih (fun x hx => h x (List.mem_cons_of_mem _ hx))

theorem isDC_of_digit {c : Char} (h : isDigitC c = true) : isDC c = true := by
  simp [isDC, h]

theorem captureSplit_digits_sep {ds rest' : List Char} (hds : ∀ x ∈ ds, isDC x = true) :
    captureSplit (ds ++ (' ' :: 'p' :: 'e' :: rest')) = (ds, ' ' :: 'p' :: 'e' :: rest') := by
  have htake : (ds ++ (' ' :: 'p' :: 'e' :: rest')).takeWhile isDC = ds := by
    rw [takeWhile_append_all hds, List.takeWhile_cons, if_neg (by decide)]
    simp
  have hdrop : (ds ++ (' ' :: 'p' :: 'e' :: rest')).dropWhile isDC = ' ' :: 'p' :: 'e' :: rest' := by
    rw [dropWhile_append_all hds, List.dropWhile_cons, if_neg (by decide)]
  unfold captureSplit
  rw [hdrop, htake]
  rfl

theorem captureSplit_digits {ds : List Char} (hds : ∀ x ∈ ds, isDC x = true) :
    captureSplit ds = (ds, []) := by
  have htake : ds.takeWhile isDC = ds := takeWhile_all hds
  have hdrop : ds.dropWhile isDC = [] := dropWhile_all hds
  unfold captureSplit
  rw [hdrop, htake]

theorem r1Search_euro {A : ℕ} {tok g : List Char}
    (hg : altMatch tok = some g) (hsp : tok.dropWhile isJsSpace = tok) :
    r1Search ('€' :: (natToDigits A ++ (' ' :: 'p' :: 'e' :: 'r' :: ' ' :: tok))) =
      some (natToDigits A, some g) := by
  obtain ⟨d, ds', hsplit⟩ : ∃ d t, natToDigits A = d :: t := by
    cases hn : natToDigits A with
    | nil => exact absurd hn (natToDigits_ne_nil A)
    | cons d t => exact ⟨d, t, rfl⟩
  have hds : ∀ c ∈ natToDigits A, isDigitC c = true := mem_natToDigits
  have hd : isDigitC d = true := hds d (by rw [hsplit]; exact List.mem_cons_self _ _)
  have hDC : ∀ x ∈ natToDigits A, isDC x = true := fun x hx => isDC_of_digit (hds x hx)
  have hcs : captureSplit (natToDigits A ++ (' ' :: 'p' :: 'e' :: 'r' :: ' ' :: tok)) =
      (natToDigits A, ' ' :: 'p' :: 'e' :: 'r' :: ' ' :: tok) :=
    captureSplit_digits_sep hDC
  have hg2 : group2From (' ' :: 'p' :: 'e' :: 'r' :: ' ' :: tok) = some g := by
    have e : group2From (' ' :: 'p' :: 'e' :: 'r' :: ' ' :: tok) =
        match altMatch (tok.dropWhile isJsSpace) with
        | some a => some a
        | none => altMatch ('p' :: 'e' :: 'r' :: ' ' :: tok) := rfl
    rw [e, hsp, hg]
  have hmatch : r1MatchAt ('€' :: (natToDigits A ++ (' ' :: 'p' :: 'e' :: 'r' :: ' ' :: tok))) =
      some (natToDigits A, some g) := by
    have e0 : r1MatchAt ('€' :: (natToDigits A ++ (' ' :: 'p' :: 'e' :: 'r' :: ' ' :: tok))) =
        r1AtEuro (natToDigits A ++ (' ' :: 'p' :: 'e' :: 'r' :: ' ' :: tok)) := rfl
    rw [e0]
    unfold r1AtEuro
    rw [hsplit, List.cons_append, List.dropWhile_cons,
      if_neg (by simp [isJsSpace_eq_false_of_digit hd])]
    show (if isDC d then
        some ((captureSplit (d :: (ds' ++ (' ' :: 'p' :: 'e' :: 'r' :: ' ' :: tok)))).1,
          group2From (captureSplit (d :: (ds' ++ (' ' :: 'p' :: 'e' :: 'r' :: ' ' :: tok)))).2)
      else none) = some (d :: ds', some g)
    rw [if_pos (isDC_of_digit hd)]
    have hcs2 := hcs
    rw [hsplit] at hcs2
    rw [show captureSplit (d :: (ds' ++ (' ' :: 'p' :: 'e' :: 'r' :: ' ' :: tok))) =
        (d :: ds', ' ' :: 'p' :: 'e' :: 'r' :: ' ' :: tok) from hcs2]
    show some (d :: ds', group2From (' ' :: 'p' :: 'e' :: 'r' :: ' ' :: tok)) =
      some (d :: ds', some g)
    rw [hg2]
  rw [r1Search, hmatch]

theorem parsePriceMain_euro_per (s : List Char) (A : ℕ) {tok g : List Char}
    (hg : altMatch tok = some g) (hsp : tok.dropWhile isJsSpace = tok) (ha : 'a' ∉ tok) :
    parsePriceMain s ('€' :: (natToDigits A ++ (' ' :: 'p' :: 'e' :: 'r' :: ' ' :: tok))) =
      ⟨some (if weeklyWord g then weeklyToMonthly (.num (A : ℚ)) else .num (A : ℚ)),
        .numeric⟩ := by
  have hds : ∀ c ∈ natToDigits A, isDigitC c = true := mem_natToDigits
  have hnota : 'a' ∉ '€' :: (natToDigits A ++ (' ' :: 'p' :: 'e' :: 'r' :: ' ' :: tok)) := by
    intro hmem
    rcases List.mem_cons.mp hmem with h | h
    · exact absurd h (by decide)
    · rcases List.mem_append.mp h with h | h
      · exact absurd (hds _ h) (by decide)
      · simp only [List.mem_cons] at h
        rcases h with h | h | h | h | h | h
        · exact absurd h (by decide)
        · exact absurd h (by decide)
        · exact absurd h (by decide)
        · exact absurd h (by decide)
        · exact absurd h (by decide)
        · exact ha h
  have h1 : containsSub ("price on application".toList)
      ('€' :: (natToDigits A ++ (' ' :: 'p' :: 'e' :: 'r' :: ' ' :: tok))) = false :=
    containsSub_eq_false (x := 'a') (by decide) hnota
  have h2 : containsSub ("contact agent".toList)
      ('€' :: (natToDigits A ++ (' ' :: 'p' :: 'e' :: 'r' :: ' ' :: tok))) = false :=
    containsSub_eq_false (x := 'a') (by decide) hnota
  unfold parsePriceMain
  rw [h1, h2, if_neg (by simp)]
  rw [r1Search_euro hg hsp]
  show r1Settle s ('€' :: (natToDigits A ++ (' ' :: 'p' :: 'e' :: 'r' :: ' ' :: tok)))
    (natToDigits A) (some g) = _
  unfold r1Settle
  rw [stripCommas_digits hds, jsParseFloat_all_digits (natToDigits_ne_nil A) hds,
    natVal_natToDigits]

theorem r1Search_digits {ds : List Char} (hne : ds ≠ [])
    (hds : ∀ c ∈ ds, isDigitC c = true) : r1Search ds = some (ds, none) := by
  obtain ⟨d, ds', rfl⟩ : ∃ d t, ds = d :: t := by
    cases ds with
    | nil => exact absurd rfl hne
    | cons d t => exact ⟨d, t, rfl⟩
  have hd : isDigitC d = true := hds d (List.mem_cons_self _ _)
  have hDC : ∀ x ∈ d :: ds', isDC x = true := fun x hx => isDC_of_digit (hds x hx)
  have hcs : captureSplit (d :: ds') = (d :: ds', []) := captureSplit_digits hDC
  have hmatch : r1MatchAt (d :: ds') = some (d :: ds', none) := by
    unfold r1MatchAt
    show (if d = '€' then r1AtEuro ds'
      else if isDC d then
        some ((captureSplit (d :: ds')).1, group2From (captureSplit (d :: ds')).2)
      else none) = some (d :: ds', none)
    rw [if_neg (digit_ne hd (Or.inr (by decide))), if_pos (isDC_of_digit hd), hcs]
    rfl
  rw [r1Search, hmatch]

theorem r2Match_digits {ds : List Char} (hne : ds ≠ [])
    (hds : ∀ c ∈ ds, isDigitC c = true) : r2Match ds = none := by
  obtain ⟨d, ds', rfl⟩ : ∃ d t, ds = d :: t := by
    cases ds with
    | nil => exact absurd rfl hne
    | cons d t => exact ⟨d, t, rfl⟩
  have hDC : ∀ x ∈ d :: ds', isDC x = true := fun x hx => isDC_of_digit (hds x hx)
  unfold r2Match
  show (if isDC d then
      (match r2Period ((captureSplit (d :: ds')).2.dropWhile isJsSpace) with
        | some a => some ((captureSplit (d :: ds')).1, a)
        | none => none)
    else none) = none
  rw [if_pos (isDC_of_digit (hds d (List.mem_cons_self _ _))), captureSplit_digits hDC]
  rfl

theorem isEmpty_eq_false_of_ne_nil {l : List Char} (hne : l ≠ []) : l.isEmpty = false := by
  cases l with
  | nil => exact absurd rfl hne
  | cons c t => rfl

theorem r3Candidate_digits {ds : List Char} (hne : ds ≠ [])
    (hds : ∀ c ∈ ds, isDigitC c = true) : r3Candidate ds = some ds := by
  have hf1 : ds.filter (fun c => isDigitC c || decide (c = '.')) = ds :=
    List.filter_eq_self.mpr (fun a ha => by simp [hds a ha])
  have hf2 : ds.filter
      (fun c => isDigitC c || decide (c = '€') || isJsSpace c || decide (c = '.') ||
        decide (c = ',')) = ds :=
    List.filter_eq_self.mpr (fun a ha => by simp [hds a ha])
  unfold r3Candidate
  rw [hf1, hf2, if_pos (by simp [isEmpty_eq_false_of_ne_nil hne])]

theorem parsePriceMain_digits_eq (N : ℕ) :
    parsePriceMain (natToDigits N) (natToDigits N) =
      r3Rest (natToDigits N) (.num (N : ℚ)) := by
  have hds : ∀ c ∈ natToDigits N, isDigitC c = true := mem_natToDigits
  have hne := natToDigits_ne_nil N
  have honapp : containsSub ("price on application".toList) (natToDigits N) = false :=
    containsSub_eq_false (x := 'p') (by decide) (not_mem_digits hds (by decide))
  have hcontact : containsSub ("contact agent".toList) (natToDigits N) = false :=
    containsSub_eq_false (x := 'c') (by decide) (not_mem_digits hds (by decide))
  have hnoeuro : (natToDigits N).contains '€' = false :=
    contains_eq_false_of_digits hds (Or.inr (by decide))
  have hpm : containsSub ("per month".toList) (natToDigits N) = false :=
    containsSub_eq_false (x := 'p') (by decide) (not_mem_digits hds (by decide))
  have hpw : containsSub ("per week".toList) (natToDigits N) = false :=
    containsSub_eq_false (x := 'p') (by decide) (not_mem_digits hds (by decide))
  unfold parsePriceMain
  rw [honapp, hcontact, if_neg (by simp)]
  rw [r1Search_digits hne hds]
  show r1Settle (natToDigits N) (natToDigits N) (natToDigits N) none = _
  unfold r1Settle
  rw [stripCommas_digits hds, jsParseFloat_all_digits hne hds, natVal_natToDigits]
  show (if (natToDigits N).contains '€' = true then
      (⟨some (.num (N : ℚ)), .numeric⟩ : ParsedPriceResult)
    else afterR1 (natToDigits N) (natToDigits N)) = _
  rw [hnoeuro, if_neg (by simp)]
  unfold afterR1
  rw [r2Match_digits hne hds]
  show r3Fallback (natToDigits N) (natToDigits N) = _
  unfold r3Fallback
  rw [r3Candidate_digits hne hds]
  show r3Settle (natToDigits N) (natToDigits N) = _
  unfold r3Settle
  rw [jsParseFloat_all_digits hne hds, natVal_natToDigits]
  show (if ((natToDigits N).contains '€' || containsSub ("per month".toList) (natToDigits N) ||
      containsSub ("per week".toList) (natToDigits N)) = true then
      (if (natToDigits N).contains '€' = true then
        (⟨some (.num (N : ℚ)), .numeric⟩ : ParsedPriceResult)
      else r3Rest (natToDigits N) (.num (N : ℚ)))
    else r3Rest (natToDigits N) (.num (N : ℚ))) = _
  rw [hnoeuro, hpm, hpw, if_neg (by simp)]

theorem periodMarkerTest_digits {ds : List Char} (hds : ∀ c ∈ ds, isDigitC c = true) :
    periodMarkerTest ds = false := by
  unfold periodMarkerTest
  rw [containsSub_eq_false (x := 'm') (by decide) (not_mem_digits hds (by decide)),
    containsSub_eq_false (x := 'w') (by decide) (not_mem_digits hds (by decide)),
    containsSub_eq_false (x := 'm') (by decide) (not_mem_digits hds (by decide)),
    containsSub_eq_false (x := 'w') (by decide) (not_mem_digits hds (by decide)),
    containsSub_eq_false (x := 'p') (by decide) (not_mem_digits hds (by decide)),
    containsSub_eq_false (x := 'p') (by decide) (not_mem_digits hds (by decide)),
    containsSub_eq_false (x := 'p') (by decide) (not_mem_digits hds (by decide)),
    containsSub_eq_false (x := 'p') (by decide) (not_mem_digits hds (by decide))]
  rfl

theorem r3Rest_digits_low {N : ℕ} (hN : N < 100) :
    r3Rest (natToDigits N) (.num (N : ℚ)) = ⟨none, .unknown⟩ := by
  have hds : ∀ c ∈ natToDigits N, isDigitC c = true := mem_natToDigits
  have hdub : containsSub ("dublin".toList) (natToDigits N) = false :=
    containsSub_eq_false (x := 'd') (by decide) (not_mem_digits hds (by decide))
  have hnoeuro : (natToDigits N).contains '€' = false :=
    contains_eq_false_of_digits hds (Or.inr (by decide))
  have hlt : jsLtB (.num (N : ℚ)) 100 = true := by
    show decide ((N : ℚ) < 100) = true
    exact decide_eq_true (by exact_mod_cast hN)
  unfold r3Rest
  rw [hdub, if_neg (by simp)]
  rw [hlt, hnoeuro, periodMarkerTest_digits hds, if_pos (by simp)]

theorem r3Rest_digits_high {N : ℕ} (hN : 100 ≤ N) :
    r3Rest (natToDigits N) (.num (N : ℚ)) = ⟨some (.num (N : ℚ)), .numeric⟩ := by
  have hds : ∀ c ∈ natToDigits N, isDigitC c = true := mem_natToDigits
  have hdub : containsSub ("dublin".toList) (natToDigits N) = false :=
    containsSub_eq_false (x := 'd') (by decide) (not_mem_digits hds (by decide))
  have hlt : jsLtB (.num (N : ℚ)) 100 = false := by
    show decide ((N : ℚ) < 100) = false
    exact decide_eq_false (not_lt.mpr (by exact_mod_cast hN))
  have hge : jsGeB (.num (N : ℚ)) 100 = true := by
    show decide ((100 : ℚ) ≤ (N : ℚ)) = true
    exact decide_eq_true (by exact_mod_cast hN)
  unfold r3Rest
  rw [hdub, if_neg (by simp)]
  rw [hlt, if_neg (by simp)]
  rw [hge, if_pos rfl]

theorem parsePrice_digits_eval (N : ℕ) :
    parsePrice (some (natToDigits N)) = r3Rest (natToDigits N) (.num (N : ℚ)) := by
  unfold parsePrice
  show (if (natToDigits N).isEmpty = true then (⟨none, .unknown⟩ : ParsedPriceResult)
    else parsePriceMain (natToDigits N) (toLowerL (natToDigits N))) = _
  rw [isEmpty_eq_false_of_ne_nil (natToDigits_ne_nil N), if_neg (by simp)]
  rw [toLowerL_all_digits mem_natToDigits]
  exact parsePriceMain_digits_eq N

theorem parsePrice_euro_per_eval (A : ℕ) {tok g : List Char}
    (hg : altMatch tok = some g) (hsp : tok.dropWhile isJsSpace = tok) (ha : 'a' ∉ tok)
    (hlower : toLowerL tok = tok) :
    parsePrice (some ('€' :: (natToDigits A ++ (' ' :: 'p' :: 'e' :: 'r' :: ' ' :: tok)))) =
      ⟨some (if weeklyWord g then weeklyToMonthly (.num (A : ℚ)) else .num (A : ℚ)),
        .numeric⟩ := by
  have hl : toLowerL ('€' :: (natToDigits A ++ (' ' :: 'p' :: 'e' :: 'r' :: ' ' :: tok))) =
      '€' :: (natToDigits A ++ (' ' :: 'p' :: 'e' :: 'r' :: ' ' :: tok)) := by
    have hds := toLowerL_all_digits (mem_natToDigits (n := A))
    unfold toLowerL at hds hlower ⊢
    simp only [List.map_cons, List.map_append, hds, hlower]
    rw [show '€'.toLower = '€' from by decide, show ' '.toLower = ' ' from by decide,
      show 'p'.toLower = 'p' from by decide, show 'e'.toLower = 'e' from by decide,
      show 'r'.toLower = 'r' from by decide]
  unfold parsePrice
  show (if ('€' :: (natToDigits A ++ (' ' :: 'p' :: 'e' :: 'r' :: ' ' :: tok))).isEmpty = true
      then (⟨none, .unknown⟩ : ParsedPriceResult)
    else parsePriceMain ('€' :: (natToDigits A ++ (' ' :: 'p' :: 'e' :: 'r' :: ' ' :: tok)))
      (toLowerL ('€' :: (natToDigits A ++ (' ' :: 'p' :: 'e' :: 'r' :: ' ' :: tok))))) = _
  rw [show ('€' :: (natToDigits A ++ (' ' :: 'p' :: 'e' :: 'r' :: ' ' :: tok))).isEmpty = false
    from rfl, if_neg (by simp), hl]
  exact parsePriceMain_euro_per _ A hg hsp ha

/-! ## Lemmas for `extractLatLng` -/

theorem jsParseFloat_cases {l : List Char} (hI : 'I' ∉ l) :
    jsParseFloat l = .nan ∨ ∃ q : ℚ, jsParseFloat l = .num q := by
  have hsub1 : ∀ x, x ∈ l.dropWhile isJsSpace → x ∈ l :=
    fun x hx => (List.dropWhile_sublist isJsSpace).mem hx
  have hI1 : 'I' ∉ l.dropWhile isJsSpace := fun hx => hI (hsub1 _ hx)
  have hsub2 : ∀ x, x ∈ (signSplit (l.dropWhile isJsSpace)).2 → x ∈ l.dropWhile isJsSpace := by
    intro x hx
    cases hc : l.dropWhile isJsSpace with
    | nil =>
      rw [hc] at hx
      simp [signSplit] at hx
    | cons c t =>
      rw [hc] at hx
      by_cases hp : c = '+'
      · simp only [signSplit, hp, if_pos] at hx
        exact List.mem_cons_of_mem _ hx
      · by_cases hm2 : c = '-'
        · simp only [signSplit, hp, hm2, if_neg, if_pos, ite_true, ite_false] at hx
          simp at hx
          exact List.mem_cons_of_mem _ hx
        · simp only [signSplit, hp, hm2] at hx
          simp at hx
          exact List.mem_cons.mpr hx
  have hInf : ("Infinity".toList).isPrefixOf (signSplit (l.dropWhile isJsSpace)).2 = false := by
    by_contra hc
    have hp := Bool.of_not_eq_false hc
    have hmem : 'I' ∈ (signSplit (l.dropWhile isJsSpace)).2 :=
      mem_of_isPrefixOf hp 'I' (by decide)
    exact hI1 (hsub2 _ hmem)
  simp only [jsParseFloat, hInf, Bool.false_eq_true, if_false]
  split
  · exact Or.inl rfl
  · exact Or.inr ⟨_, rfl⟩

theorem coordMatchAt_chars {pre : List Char} {sep : Char} {l r1 r2 : List Char}
    (h : coordMatchAt pre sep l = some (r1, r2)) :
    (∀ x ∈ r1, isCoordChar x = true) ∧ ∀ x ∈ r2, isCoordChar x = true := by
  unfold coordMatchAt at h
  split at h
  · split at h
    · exact absurd h (by simp)
    · split at h
      · exact absurd h (by simp)
      · split at h
        · split at h
          · exact absurd h (by simp)
          · injection h with h
            have h1 := congrArg Prod.fst h
            have h2 := congrArg Prod.snd h
            simp only at h1 h2
            subst h1
            subst h2
            exact ⟨fun x hx => (mem_of_takeWhile hx).1, fun x hx => (mem_of_takeWhile hx).1⟩
        · exact absurd h (by simp)
  · exact absurd h (by simp)

theorem coordSearch_chars {pre : List Char} {sep : Char} {l r1 r2 : List Char}
    (h : coordSearch pre sep l = some (r1, r2)) :
    (∀ x ∈ r1, isCoordChar x = true) ∧ ∀ x ∈ r2, isCoordChar x = true := by
  induction l with
  | nil => simp [coordSearch] at h
  | cons c t ih =>
    rw [coordSearch] at h
    cases hm : coordMatchAt pre sep (c :: t) with
    | some r =>
      rw [hm] at h
      injection h with h
      subst h
      exact coordMatchAt_chars hm
    | none =>
      rw [hm] at h
      exact ih h

theorem coordPick_chars {l r1 r2 : List Char} (h : coordPick l = some (r1, r2)) :
    (∀ x ∈ r1, isCoordChar x = true) ∧ ∀ x ∈ r2, isCoordChar x = true := by
  unfold coordPick at h
  split at h
  · rename_i r hm
    injection h with h
    subst h
    exact coordSearch_chars hm
  · exact coordSearch_chars h

theorem no_I_of_coordChars {r : List Char} (h : ∀ x ∈ r, isCoordChar x = true) :
    'I' ∉ r := by
  intro hx
  have := h _ hx
  simp only [isCoordChar, isDigitC, Bool.or_eq_true, Bool.and_eq_true,
    decide_eq_true_eq] at this
  rcases this with (h1 | h1) | h1 <;> first
    | omega
    | exact absurd h1 (by decide)

/-! ## Lemmas for `getTotalPages` -/

theorem totalResultsSearch_of_digits (N : ℕ) :
    totalResultsSearch (("of ".toList) ++ natToDigits N ++ (" total results".toList)) =
      some (natToDigits N) := by
  obtain ⟨d, ds', hsplit⟩ : ∃ d t, natToDigits N = d :: t := by
    cases hn : natToDigits N with
    | nil => exact absurd hn (natToDigits_ne_nil N)
    | cons d t => exact ⟨d, t, rfl⟩
  have hds : ∀ c ∈ natToDigits N, isDigitC c = true := mem_natToDigits
  have hd : isDigitC d = true := hds d (by rw [hsplit]; exact List.mem_cons_self _ _)
  have hDC : ∀ x ∈ natToDigits N, isDC x = true := fun x hx => isDC_of_digit (hds x hx)
  have e0 : ("of ".toList) ++ natToDigits N ++ (" total results".toList) =
      'o' :: 'f' :: ' ' :: (natToDigits N ++ (" total results".toList)) := rfl
  have e2 : (' ' :: (natToDigits N ++ (" total results".toList))).dropWhile isJsSpace =
      natToDigits N ++ (" total results".toList) := by
    rw [List.dropWhile_cons, if_pos (by decide), hsplit, List.cons_append,
      List.dropWhile_cons, if_neg (by simp [isJsSpace_eq_false_of_digit hd]),
      ← List.cons_append, ← hsplit]
  have e3 : (natToDigits N ++ (" total results".toList)).takeWhile isDC = natToDigits N := by
    rw [takeWhile_append_all hDC,
      show (" total results".toList).takeWhile isDC = [] from by decide]
    simp
  have e4 : (natToDigits N ++ (" total results".toList)).dropWhile isDC =
      " total results".toList := by
    rw [dropWhile_append_all hDC]
    decide
  have hne : (natToDigits N).isEmpty = false := isEmpty_eq_false_of_ne_nil (natToDigits_ne_nil N)
  rw [e0, totalResultsSearch]
  have hm : totalResultsAt
      ('o' :: 'f' :: ' ' :: (natToDigits N ++ (" total results".toList))) =
      some (natToDigits N) := by
    unfold totalResultsAt
    rw [if_pos (show ("of".toList).isPrefixOf
        ('o' :: 'f' :: ' ' :: (natToDigits N ++ (" total results".toList))) = true from rfl)]
    rw [show ('o' :: 'f' :: ' ' :: (natToDigits N ++ (" total results".toList))).drop 2 =
      ' ' :: (natToDigits N ++ (" total results".toList)) from rfl]
    rw [e2, e3, e4, hne]
    rw [if_neg (by simp)]
    rw [if_pos (by decide)]
  rw [hm]

theorem nat_ceil_div_twenty (N : ℕ) :
    (⌈(N : ℚ) / 20⌉ : ℤ) = ((N + 19) / 20 : ℕ) := by
  have h1 : N ≤ 20 * ((N + 19) / 20) := by omega
  have h2 : 20 * ((N + 19) / 20) ≤ N + 19 := by omega
  have hq1 : (N : ℚ) ≤ 20 * (((N + 19) / 20 : ℕ) : ℚ) := by exact_mod_cast h1
  have hq2 : 20 * (((N + 19) / 20 : ℕ) : ℚ) ≤ (N : ℚ) + 19 := by exact_mod_cast h2
  have hcast : ((((N + 19) / 20 : ℕ) : ℤ) : ℚ) = (((N + 19) / 20 : ℕ) : ℚ) := by norm_cast
  rw [Int.ceil_eq_iff]
  constructor
  · rw [lt_div_iff (by norm_num : (0 : ℚ) < 20)]
    rw [hcast]
    linarith
  · rw [div_le_iff (by norm_num : (0 : ℚ) < 20)]
    rw [hcast]
    linarith

theorem getTotalPages_digits (N : ℕ) :
    getTotalPages (("of ".toList) ++ natToDigits N ++ (" total results".toList)) =
      min ((N + 19) / 20) 5 := by
  have hds : ∀ c ∈ natToDigits N, isDigitC c = true := mem_natToDigits
  have hlow : toLowerL (("of ".toList) ++ natToDigits N ++ (" total results".toList)) =
      ("of ".toList) ++ natToDigits N ++ (" total results".toList) := by
    have hdl := toLowerL_all_digits (mem_natToDigits (n := N))
    unfold toLowerL at hdl ⊢
    simp only [List.map_append, hdl]
    rw [show ("of ".toList).map Char.toLower = "of ".toList from by decide,
      show (" total results".toList).map Char.toLower = " total results".toList from by decide]
  unfold getTotalPages
  rw [show (("of ".toList) ++ natToDigits N ++ (" total results".toList)).isEmpty = false
    from rfl]
  rw [if_neg (by simp), hlow, totalResultsSearch_of_digits N]
  show (if (stripCommas (natToDigits N)).isEmpty = true then 1
    else (min (⌈((natVal (stripCommas (natToDigits N)) : ℕ) : ℚ) / 20⌉ : ℤ)
      ((configMaxPagesToFetch : ℕ) : ℤ)).toNat) = _
  rw [stripCommas_digits hds, isEmpty_eq_false_of_ne_nil (natToDigits_ne_nil N),
    if_neg (by simp), natVal_natToDigits, nat_ceil_div_twenty]
  show (min (((N + 19) / 20 : ℕ) : ℤ) ((5 : ℕ) : ℤ)).toNat = _
  rw [← Nat.cast_min]
  exact Int.toNat_natCast _

/-! ## Lemmas for `fetchPageHTML` -/

theorem fetchGo_all_fail (m d p : ℕ) (out : ℕ → FetchOutcome)
    (hf : ∀ k, ∃ a s, out k = .failure a s ∧ ¬(a = true ∧ s = some 404)) :
    ∀ fuel attempt, fuel + attempt = m + 2 → 1 ≤ attempt → attempt ≤ m + 1 →
      fetchGo m d p out fuel attempt =
        ⟨.error ⟨maxRetriesMsg p⟩, m + 1, List.replicate (fuel - 1) d⟩ := by
  intro fuel
  induction fuel with
  | zero =>
    intro attempt hsum h1 hle
    exfalso; omega
  | succ fuel ih =>
    intro attempt hsum h1 hle
    obtain ⟨a, s, hout, hns⟩ := hf attempt
    rw [fetchGo, if_pos hle]
    simp only [hout]
    rw [if_neg hns]
    by_cases hcase : m < attempt
    · rw [if_pos hcase]
      have ha : attempt = m + 1 := by omega
      have hfz : fuel = 0 := by omega
      subst ha; subst hfz
      rfl
    · rw [if_neg hcase]
      have ihr := ih (attempt + 1) (by omega) (by omega) (by omega)
      simp only [ihr]
      congr 1
      rw [← List.replicate_succ]
      congr 1
      omega

/-! ## Lemmas for the filter engine -/

theorem locationActive_of_ne_nil (f : SearchParams)
    (h : requestedLocations f ≠ []) : locationActive f = true := by
  unfold locationActive
  cases hL : f.location with
  | none =>
    exact absurd (by unfold requestedLocations; rw [hL]; rfl) h
  | some lp =>
    cases lp with
    | single s =>
      cases hs : s with
      | nil =>
        exfalso
        apply h
        unfold requestedLocations
        rw [hL, hs]
        rfl
      | cons c t => rfl
    | multi ls => rfl

/-! ## Lemmas for the unit extractor and the detail enricher -/

theorem ne_nil_of_isEmpty_false {l : List Char} (h : l.isEmpty = false) : l ≠ [] := by
  intro hl
  rw [hl] at h
  exact absurd h (by decide)

theorem truthyO_iff (o : Option (List Char)) :
    truthyO o = true ↔ ∃ s, o = some s ∧ s ≠ [] := by
  cases o with
  | none => simp [truthyO]
  | some s =>
    cases s with
    | nil => simp [truthyO]
    | cons c t => simp [truthyO]

theorem mkSubProperty_fields {p : PropertyRec} {a : SubUnitAnchor} {q : PropertyRec}
    (h : mkSubProperty p a = some q) :
    q.address = p.address ∧ q.tagline = p.tagline ∧ q.latitude = p.latitude ∧
      q.longitude = p.longitude := by
  cases hh : a.href with
  | none =>
    unfold mkSubProperty at h
    rw [hh] at h
    exact absurd h (by simp)
  | some rel =>
    simp only [mkSubProperty, hh] at h
    split at h
    · rw [Option.some_inj] at h
      rw [← h]
      exact ⟨rfl, rfl, rfl, rfl⟩
    · exact absurd h (by simp)

theorem mkSubProperty_drop (p : PropertyRec) (a : SubUnitAnchor)
    (h : a.href = none ∨ (∃ rel, a.href = some rel ∧ lastSegment rel = []) ∨
      a.priceText = [] ∨ truthyO p.address = false) :
    mkSubProperty p a = none := by
  cases hh : a.href with
  | none =>
    unfold mkSubProperty
    rw [hh]
  | some rel =>
    simp only [mkSubProperty, hh]
    rcases h with h | ⟨rel', hrel', hseg⟩ | h | h
    · rw [hh] at h
      exact Option.noConfusion h
    · rw [hh] at hrel'
      injection hrel' with he
      subst he
      rw [if_neg (by simp [hseg])]
    · rw [if_neg (by simp [h])]
    · rw [if_neg (by simp [h])]

theorem filterMap_length_all_some {α β : Type} (f : α → Option β) :
    ∀ l : List α, (∀ a ∈ l, (f a).isSome = true) → (l.filterMap f).length = l.length := by
  intro l
  induction l with
  | nil => intro _; rfl
  | cons a t ih =>
    intro h
    cases hf : f a with
    | none =>
      have hm := h a (List.mem_cons_self a t)
      rw [hf] at hm
      exact absurd hm (by simp)
    | some b =>
      rw [List.filterMap_cons_some hf, List.length_cons, List.length_cons,
        ih (fun x hx => h x (List.mem_cons_of_mem _ hx))]

/-! # Claim theorems -/

/-- C1: for every amount `A ≥ 100` and period token
`p ∈ {month, week, pm, p/m, pw, p/w, mth, wk}`, `parsePrice` applied to
`"€" + A + " per " + p` returns kind `numeric` with value `A` for the
monthly forms (`month`, `mth`, `pm`, `p/m`) and value `round(A*52/12)` for
the weekly forms (`week`, `wk`, `pw`, `p/w`). -/
theorem claim1_parsePrice_euro_amount_period (A : ℕ) (hA : 100 ≤ A) (p : List Char) :
    (p ∈ ["month".toList, "mth".toList, "pm".toList, "p/m".toList] →
      parsePrice (some ('€' :: (natToDigits A ++ (" per ".toList ++ p)))) =
        ⟨some (.num (A : ℚ)), .numeric⟩) ∧
    (p ∈ ["week".toList, "wk".toList, "pw".toList, "p/w".toList] →
      parsePrice (some ('€' :: (natToDigits A ++ (" per ".toList ++ p)))) =
        ⟨some (.num ((⌊(A : ℚ) * 52 / 12 + 1 / 2⌋ : ℤ) : ℚ)), .numeric⟩) := by
  constructor
  · intro hp
    simp only [List.mem_cons, List.mem_singleton, List.not_mem_nil, or_false] at hp
    rcases hp with rfl | rfl | rfl | rfl
    · exact @parsePrice_euro_per_eval A ("month".toList) ("month".toList)
        (by decide) (by decide) (by decide) (by decide)
    · exact @parsePrice_euro_per_eval A ("mth".toList) ("mth".toList)
        (by decide) (by decide) (by decide) (by decide)
    · exact @parsePrice_euro_per_eval A ("pm".toList) ("pm".toList)
        (by decide) (by decide) (by decide) (by decide)
    · exact @parsePrice_euro_per_eval A ("p/m".toList) ("p/m".toList)
        (by decide) (by decide) (by decide) (by decide)
  · intro hp
    simp only [List.mem_cons, List.mem_singleton, List.not_mem_nil, or_false] at hp
    rcases hp with rfl | rfl | rfl | rfl
    · exact @parsePrice_euro_per_eval A ("week".toList) ("week".toList)
        (by decide) (by decide) (by decide) (by decide)
    · exact @parsePrice_euro_per_eval A ("wk".toList) ("wk".toList)
        (by decide) (by decide) (by decide) (by decide)
    · exact @parsePrice_euro_per_eval A ("pw".toList) ("pw".toList)
        (by decide) (by decide) (by decide) (by decide)
    · exact @parsePrice_euro_per_eval A ("p/w".toList) ("p/w".toList)
        (by decide) (by decide) (by decide) (by decide)

/-- Witness for C1 at `A = 2500`, `p = "month"` and at `A = 500`,
`p = "week"`. -/
theorem claim1_witness :
    (100 ≤ 2500) ∧
    parsePrice (some ('€' :: (natToDigits 2500 ++ (" per ".toList ++ "month".toList)))) =
      ⟨some (.num (2500 : ℚ)), .numeric⟩ ∧
    parsePrice (some ('€' :: (natToDigits 500 ++ (" per ".toList ++ "week".toList)))) =
      ⟨some (.num ((⌊(500 : ℚ) * 52 / 12 + 1 / 2⌋ : ℤ) : ℚ)), .numeric⟩ :=
  ⟨by norm_num,
    (claim1_parsePrice_euro_amount_period 2500 (by norm_num) ("month".toList)).1 (by decide),
    (claim1_parsePrice_euro_amount_period 500 (by norm_num) ("week".toList)).2 (by decide)⟩

/-- C2: `parsePrice` rejects ambiguous inputs — `undefined`, the empty
string, `"Dublin 4"` and `"5"` give kind `unknown` with value `null`, and
in general every bare numeral below 100 is rejected while a bare numeral
of at least 100 yields `numeric` with that value. -/
theorem claim2_parsePrice_ambiguous :
    parsePrice none = ⟨none, .unknown⟩ ∧
    parsePrice (some ("".toList)) = ⟨none, .unknown⟩ ∧
    parsePrice (some ("Dublin 4".toList)) = ⟨none, .unknown⟩ ∧
    parsePrice (some ("5".toList)) = ⟨none, .unknown⟩ ∧
    (∀ N : ℕ, N < 100 → parsePrice (some (natToDigits N)) = ⟨none, .unknown⟩) ∧
    (∀ N : ℕ, 100 ≤ N →
      parsePrice (some (natToDigits N)) = ⟨some (.num (N : ℚ)), .numeric⟩) := by
  refine ⟨by decide, by decide, by with_unfolding_all decide, by with_unfolding_all decide,
    ?_, ?_⟩
  · intro N hN
    rw [parsePrice_digits_eval]
    exact r3Rest_digits_low hN
  · intro N hN
    rw [parsePrice_digits_eval]
    exact r3Rest_digits_high hN

/-- Witness for C2's quantified parts at `N = 99` and `N = 750`. -/
theorem claim2_witness :
    (99 < 100) ∧ parsePrice (some (natToDigits 99)) = ⟨none, .unknown⟩ ∧
    (100 ≤ 750) ∧
    parsePrice (some (natToDigits 750)) = ⟨some (.num (750 : ℚ)), .numeric⟩ :=
  ⟨by norm_num, claim2_parsePrice_ambiguous.2.2.2.2.1 99 (by norm_num), by norm_num,
    claim2_parsePrice_ambiguous.2.2.2.2.2 750 (by norm_num)⟩

/-- C3: when the requested location normalises (lowercase + trim) to
exactly "ringsend", the scraper's location filter accepts every record
whose lowercased address contains "irishtown", "grand canal dock",
"dublin 4" or "dublin 2", or matches whole-word "d4" or "d2" — no
occurrence of "ringsend" in the address is required. -/
theorem claim3_ringsend_synonyms (req addr : List Char)
    (hreq : trimL (toLowerL req) = "ringsend".toList)
    (haddr : containsSub ("irishtown".toList) (toLowerL addr) = true ∨
      containsSub ("grand canal dock".toList) (toLowerL addr) = true ∨
      containsSub ("dublin 4".toList) (toLowerL addr) = true ∨
      containsSub ("dublin 2".toList) (toLowerL addr) = true ∨
      matchWord ("d4".toList) (toLowerL addr) = true ∨
      matchWord ("d2".toList) (toLowerL addr) = true) :
    ∀ p : PropertyRec, p.address = some addr →
      scraperLocationCheck ⟨some (.single req), none, none, none, none⟩ p = true := by
  intro p hp
  have hreqs : requestedLocations ⟨some (.single req), none, none, none, none⟩ =
      ["ringsend".toList] := by
    unfold requestedLocations
    show List.filter (fun l => !l.isEmpty) (List.map (fun l => trimL (toLowerL l)) [req]) = _
    rw [show List.map (fun l => trimL (toLowerL l)) [req] = [trimL (toLowerL req)] from rfl,
      hreq]
    rfl
  have hact : locationActive ⟨some (.single req), none, none, none, none⟩ = true :=
    locationActive_of_ne_nil _ (by rw [hreqs]; exact fun hc => List.noConfusion hc)
  have hal : addrLowerOf p = toLowerL addr := by
    unfold addrLowerOf; rw [hp]
  have hne : (toLowerL addr).isEmpty = false := by
    cases hA : toLowerL addr with
    | nil =>
      exfalso
      rw [hA] at haddr
      rcases haddr with h | h | h | h | h | h <;> exact absurd h (by decide)
    | cons c t => rfl
  simp only [scraperLocationCheck, hact, if_true, hreqs, hal, hne]
  simp only [List.isEmpty_cons, Bool.false_eq_true, if_false, List.any_cons, List.any_nil,
    Bool.or_false]
  unfold scSingleMatch
  rw [if_pos rfl]
  rcases haddr with h | h | h | h | h | h <;> simp at h <;> simp [h]

/-- Witness for C3: requesting "Ringsend" accepts an Irishtown / Dublin 4
address that never mentions "ringsend". -/
theorem claim3_witness :
    scraperLocationCheck ⟨some (.single ("Ringsend".toList)), none, none, none, none⟩
      ⟨some ("12 Bath Avenue, Irishtown, Dublin 4".toList), none, none, none, none, none,
        .unknown, none, none, none, none, none, none, none⟩ = true :=
  claim3_ringsend_synonyms ("Ringsend".toList)
    ("12 Bath Avenue, Irishtown, Dublin 4".toList) (by decide)
    (Or.inl (by decide)) _ rfl

/-- C4: with at least one non-empty requested location, a record with an
absent or empty address is rejected by `filterProperties` whatever the
other criteria are; the scraper's inline filter rejects it only when some
price/beds/type criterion is also set — its `noFiltersActive` shortcut
(which ignores the location) otherwise keeps the record. -/
theorem claim4_empty_address_excluded (f : SearchParams) (p : PropertyRec)
    (hloc : requestedLocations f ≠ [])
    (haddr : p.address = none ∨ p.address = some []) :
    (filterPred f p = false ∧ ∀ ps : List PropertyRec, p ∉ filterProperties ps f) ∧
    (scraperNoFiltersActive f = false → scraperFilterPred f p = false) ∧
    (scraperNoFiltersActive f = true → scraperFilterPred f p = true) := by
  have hact : locationActive f = true := locationActive_of_ne_nil f hloc
  have hre : (requestedLocations f).isEmpty = false := by
    cases hR : requestedLocations f with
    | nil => exact absurd hR hloc
    | cons a t => rfl
  have hal : addrLowerOf p = [] := by
    rcases haddr with h | h
    · unfold addrLowerOf; rw [h]
    · unfold addrLowerOf; rw [h]; rfl
  have hlc : locationCheck f p = false := by
    simp [locationCheck, hact, hre, hal]
  have hslc : scraperLocationCheck f p = false := by
    simp [scraperLocationCheck, hact, hre, hal]
  have hfp : filterPred f p = false := by
    simp [filterPred, hlc]
  refine ⟨⟨hfp, fun ps => ?_⟩, fun hnf => ?_, fun hnf => ?_⟩
  · simp [filterProperties, List.mem_filter, hfp]
  · simp [scraperFilterPred, hnf, hslc]
  · simp [scraperFilterPred, hnf]

/-- Witness for C4: a location-only search and an address-less record —
`filterProperties` drops it, the scraper's shortcut keeps it. -/
theorem claim4_witness :
    filterPred ⟨some (.single ("ringsend".toList)), none, none, none, none⟩
        ⟨none, none, none, none, none, none, .unknown, none, none, none, none, none,
          none, none⟩ = false ∧
      scraperFilterPred ⟨some (.single ("ringsend".toList)), none, none, none, none⟩
        ⟨none, none, none, none, none, none, .unknown, none, none, none, none, none,
          none, none⟩ = true :=
  ⟨(claim4_empty_address_excluded ⟨some (.single ("ringsend".toList)), none, none, none, none⟩
      ⟨none, none, none, none, none, none, .unknown, none, none, none, none, none,
        none, none⟩ (by decide) (Or.inl rfl)).1.1,
    (claim4_empty_address_excluded ⟨some (.single ("ringsend".toList)), none, none, none, none⟩
      ⟨none, none, none, none, none, none, .unknown, none, none, none, none, none,
        none, none⟩ (by decide) (Or.inl rfl)).2.2 rfl⟩

/-- Counterexample to C4 as stated of the scraper's inline filter: under a
location-only search its `noFiltersActive` shortcut keeps a record whose
address is absent. -/
theorem claim4_counterexample :
    scraperFilterProperties
      [⟨none, none, none, none, none, none, .unknown, none, none, none, none, none,
        none, none⟩]
      ⟨some (.single ("ringsend".toList)), none, none, none, none⟩ =
    [⟨none, none, none, none, none, none, .unknown, none, none, none, none, none,
      none, none⟩] := by
  decide

/-- C5: a 404 answer on the first attempt makes `fetchPageHTML` return the
empty string at once — one HTTP attempt, no delay, no error; when every
attempt fails with a non-404 transport error, it performs the initial
attempt plus `maxFetchRetries` retries, sleeping `retryDelayMs` before each
retry, and ends with a `ScraperError` naming the page. -/
theorem claim5_fetchPageHTML (m d p : ℕ) (out : ℕ → FetchOutcome) :
    (out 1 = .failure true (some 404) →
      fetchPageHTML m d p out = ⟨.ok [], 1, []⟩) ∧
    ((∀ k, ∃ a s, out k = .failure a s ∧ ¬(a = true ∧ s = some 404)) →
      fetchPageHTML m d p out =
        ⟨.error ⟨maxRetriesMsg p⟩, m + 1, List.replicate m d⟩) := by
  constructor
  · intro h
    show fetchGo m d p out (m + 1) 1 = _
    rw [fetchGo, if_pos (by omega : 1 ≤ m + 1)]
    simp only [h]
    rw [if_pos ⟨trivial, trivial⟩]
  · intro hf
    show fetchGo m d p out (m + 1) 1 = _
    rw [fetchGo_all_fail m d p out hf (m + 1) 1 (by omega) (by omega) (by omega),
      Nat.add_sub_cancel]

/-- Witness for C5 with the configured `maxFetchRetries = 2`,
`retryDelayMs = 2000` and page 3: an always-404 transport and an
always-failing transport. -/
theorem claim5_witness :
    fetchPageHTML 2 2000 3 (fun _ => .failure true (some 404)) = ⟨.ok [], 1, []⟩ ∧
    fetchPageHTML 2 2000 3 (fun _ => .failure false none) =
      ⟨.error ⟨maxRetriesMsg 3⟩, 2 + 1, List.replicate 2 2000⟩ :=
  ⟨(claim5_fetchPageHTML 2 2000 3 (fun _ => .failure true (some 404))).1 rfl,
    (claim5_fetchPageHTML 2 2000 3 (fun _ => .failure false none)).2
      (fun _ => ⟨false, none, rfl, by simp⟩)⟩

/-- C6: `getTotalPages` returns `min(⌈N/20⌉, maxPagesToFetch)` whenever the
page's total-results text reads "of N total results" (for every `N`), and
returns 1 when the text is empty, lacks the pattern, or carries an
unparsable (empty after comma-stripping) number; in particular "of 45 total
results" with the default maximum of 5 gives 3 pages. -/
theorem claim6_getTotalPages :
    (∀ N : ℕ,
      getTotalPages (("of ".toList) ++ natToDigits N ++ (" total results".toList)) =
        (min (⌈(N : ℚ) / 20⌉ : ℤ) ((configMaxPagesToFetch : ℕ) : ℤ)).toNat) ∧
    getTotalPages [] = 1 ∧
    getTotalPages ("no matches for your search".toList) = 1 ∧
    getTotalPages ("of , total results".toList) = 1 ∧
    getTotalPages ("1 - 20 of 45 total results".toList) = 3 := by
  refine ⟨?_, rfl, ?_, ?_, ?_⟩
  · intro N
    rw [getTotalPages_digits N, nat_ceil_div_twenty N]
    show _ = (min (((N + 19) / 20 : ℕ) : ℤ) ((5 : ℕ) : ℤ)).toNat
    rw [← Nat.cast_min, Int.toNat_natCast]
  · with_unfolding_all decide
  · with_unfolding_all decide
  · with_unfolding_all decide

/-- C7: with at least one sub-unit anchor the enricher replaces the parent
record by one output per anchor (`filterMap` of `mkSubProperty`); every
produced record inherits the parent's address and tagline and the
coordinates after the detail-page refresh; an anchor missing its href, its
trailing-segment id, its raw price text, or a truthy parent address yields
no record; and when every anchor passes the gate the output has exactly one
record per anchor. -/
theorem claim7_subunit_flattening (parent : PropertyRec) (ll : Option (JSNum × JSNum))
    (anchors : List SubUnitAnchor) (dber : Option (List Char))
    (hne : anchors ≠ []) :
    (enrichDetail parent ll anchors dber =
      anchors.filterMap (mkSubProperty (applyDetailLatLng parent ll))) ∧
    (∀ q ∈ enrichDetail parent ll anchors dber,
      q.address = parent.address ∧ q.tagline = parent.tagline ∧
      q.latitude = (applyDetailLatLng parent ll).latitude ∧
      q.longitude = (applyDetailLatLng parent ll).longitude) ∧
    (∀ a : SubUnitAnchor,
      (a.href = none ∨ (∃ rel, a.href = some rel ∧ lastSegment rel = []) ∨
        a.priceText = [] ∨ truthyO parent.address = false) →
      mkSubProperty (applyDetailLatLng parent ll) a = none) ∧
    ((∀ a ∈ anchors, (mkSubProperty (applyDetailLatLng parent ll) a).isSome = true) →
      (enrichDetail parent ll anchors dber).length = anchors.length) := by
  have hie : anchors.isEmpty = false := by
    cases anchors with
    | nil => exact absurd rfl hne
    | cons a t => rfl
  have henrich : enrichDetail parent ll anchors dber =
      anchors.filterMap (mkSubProperty (applyDetailLatLng parent ll)) := by
    simp [enrichDetail, hie]
  have hpa : (applyDetailLatLng parent ll).address = parent.address := by
    unfold applyDetailLatLng
    cases ll with
    | none => rfl
    | some pr => cases pr with | mk la ln => rfl
  have hpt : (applyDetailLatLng parent ll).tagline = parent.tagline := by
    unfold applyDetailLatLng
    cases ll with
    | none => rfl
    | some pr => cases pr with | mk la ln => rfl
  refine ⟨henrich, ?_, ?_, ?_⟩
  · intro q hq
    rw [henrich] at hq
    rcases List.mem_filterMap.mp hq with ⟨a, _, hsome⟩
    rcases mkSubProperty_fields hsome with ⟨h1, h2, h3, h4⟩
    exact ⟨h1.trans hpa, h2.trans hpt, h3, h4⟩
  · intro a h
    apply mkSubProperty_drop
    rcases h with h | h | h | h
    · exact Or.inl h
    · exact Or.inr (Or.inl h)
    · exact Or.inr (Or.inr (Or.inl h))
    · exact Or.inr (Or.inr (Or.inr (by rw [hpa]; exact h)))
  · intro hall
    rw [henrich]
    exact filterMap_length_all_some _ anchors hall

/-- Witness for C7: a detail page with three complete sub-unit anchors
turns one parent record into exactly three records. -/
theorem claim7_witness :
    (enrichDetail
      ⟨some ("10 Main Street, Dublin 4".toList), none, none, some ("New homes".toList),
        none, none, .unknown, none, none, none, none, none, some (.num 53), some (.num (-6))⟩
      (some (.num 53, .num (-6)))
      [⟨some ("/for-rent/unit-1/111".toList), "€1,000 per month".toList, "1 Bed".toList,
          "1 Bath".toList, "Apartment".toList, none⟩,
        ⟨some ("/for-rent/unit-2/222".toList), "€2,000 per month".toList, "2 Bed".toList,
          "2 Bath".toList, "Apartment".toList, none⟩,
        ⟨some ("/for-rent/unit-3/333".toList), "€3,000 per month".toList, "3 Bed".toList,
          "2 Bath".toList, "Apartment".toList, none⟩]
      none).length = 3 := by
  apply (claim7_subunit_flattening _ _ _ _ (List.cons_ne_nil _ _)).2.2.2
  intro a ha
  rcases List.mem_cons.mp ha with rfl | ha
  · decide
  rcases List.mem_cons.mp ha with rfl | ha
  · decide
  rcases List.mem_cons.mp ha with rfl | ha
  · decide
  exact absurd ha (List.not_mem_nil a)

/-- C10: a sub-unit of a multi-unit result card is pushed onto the card's
`units` list exactly when it has an href and all six of id, url,
priceString, bedsString, bathsString and propertyTypeString are truthy
(present and non-empty); an anchor failing the gate contributes nothing to
the units list. -/
theorem claim10_unit_six_field_gate (a : UnitAnchor) :
    ((mkUnit a).isSome = true ↔
      ∃ rel bs bas ts, a.href = some rel ∧
        (unitFields a).1 = some bs ∧ (unitFields a).2.1 = some bas ∧
        (unitFields a).2.2 = some ts ∧
        lastSegment rel ≠ [] ∧ daftBaseUrl ++ rel ≠ [] ∧ a.priceText ≠ [] ∧
        bs ≠ [] ∧ bas ≠ [] ∧ ts ≠ []) ∧
    (mkUnit a = none → ∀ pre post : List UnitAnchor,
      cardUnits (pre ++ a :: post) = cardUnits (pre ++ post)) := by
  constructor
  · cases hh : a.href with
    | none => simp [mkUnit, hh]
    | some rel =>
      simp only [mkUnit, hh]
      split
      · rename_i hg
        simp only [Option.isSome_some, true_iff]
        rw [Bool.and_eq_true, Bool.and_eq_true, Bool.and_eq_true, Bool.and_eq_true,
          Bool.and_eq_true] at hg
        obtain ⟨⟨⟨⟨⟨h1, h2⟩, h3⟩, h4⟩, h5⟩, h6⟩ := hg
        rcases (truthyO_iff _).mp h4 with ⟨bs, hbs, hbsne⟩
        rcases (truthyO_iff _).mp h5 with ⟨bas, hbas, hbasne⟩
        rcases (truthyO_iff _).mp h6 with ⟨ts, hts, htsne⟩
        refine ⟨rel, bs, bas, ts, rfl, hbs, hbas, hts, ?_, ?_, ?_, hbsne, hbasne, htsne⟩
        · exact ne_nil_of_isEmpty_false (by simpa using h1)
        · exact ne_nil_of_isEmpty_false (by simpa using h2)
        · exact ne_nil_of_isEmpty_false (by simpa using h3)
      · rename_i hg
        constructor
        · intro hft
          exact absurd hft (by decide)
        rintro ⟨rel', bs, bas, ts, hrel', hbs, hbas, hts, hid, hurl, hptx, hbsne, hbasne,
          htsne⟩
        exfalso
        injection hrel' with he
        subst he
        apply hg
        have c1 := isEmpty_eq_false_of_ne_nil hid
        have c2 := isEmpty_eq_false_of_ne_nil hurl
        have c3 := isEmpty_eq_false_of_ne_nil hptx
        have c4 : truthyO (unitFields a).1 = true := by
          rw [hbs]
          show (!bs.isEmpty) = true
          rw [isEmpty_eq_false_of_ne_nil hbsne]
          rfl
        have c5 : truthyO (unitFields a).2.1 = true := by
          rw [hbas]
          show (!bas.isEmpty) = true
          rw [isEmpty_eq_false_of_ne_nil hbasne]
          rfl
        have c6 : truthyO (unitFields a).2.2 = true := by
          rw [hts]
          show (!ts.isEmpty) = true
          rw [isEmpty_eq_false_of_ne_nil htsne]
          rfl
        simp [c1, c2, c3, c4, c5, c6]
  · intro hnone pre post
    unfold cardUnits
    rw [List.filterMap_append, List.filterMap_append, List.filterMap_cons_none hnone]

/-- C8: for every input (including `undefined`), a `numeric` parse carries
a non-negative number and an `on_application` or `unknown` parse carries
`null`. -/
theorem claim8_parsePrice_invariant (input : Option (List Char)) :
    ((parsePrice input).type = .numeric →
      ∃ q : ℚ, (parsePrice input).value = some (.num q) ∧ 0 ≤ q) ∧
    ((parsePrice input).type = .on_application ∨ (parsePrice input).type = .unknown →
      (parsePrice input).value = none) :=
  parsePrice_good input

/-- Witness for C8 at the weekly input `"€1,500 per week"`. -/
theorem claim8_witness :
    (parsePrice (some ("€1,500 per week".toList))).type = .numeric ∧
    ∃ q : ℚ, (parsePrice (some ("€1,500 per week".toList))).value = some (.num q) ∧ 0 ≤ q :=
  ⟨by with_unfolding_all decide,
    (claim8_parsePrice_invariant (some ("€1,500 per week".toList))).1
      (by with_unfolding_all decide)⟩


/-- C9: for every map link (hence for every html string and selector),
`extractLatLng` returns either `null` or a pair whose members are both
finite numbers — never `NaN` and never infinite. -/
theorem claim9_extractLatLng_finite (link : Option (List Char)) :
    extractLatLng link = none ∨
      ∃ qa qb : ℚ, extractLatLng link = some (.num qa, .num qb) := by
  unfold extractLatLng
  split
  · exact Or.inl rfl
  · split
    · exact Or.inl rfl
    · rename_i l hmatch c1 c2 hpick
      rcases coordPick_chars hpick with ⟨h1, h2⟩
      split
      · rename_i hcond
        rcases jsParseFloat_cases (no_I_of_coordChars h1) with hn1 | ⟨qa, hq1⟩
        · exact absurd hn1 hcond.1
        · rcases jsParseFloat_cases (no_I_of_coordChars h2) with hn2 | ⟨qb, hq2⟩
          · exact absurd hn2 hcond.2
          · exact Or.inr ⟨qa, qb, by rw [hq1, hq2]⟩
      · exact Or.inl rfl

end Dafty
